import Mathlib

/-!
Verification development for the `FileServer.py` secure-filesystem MCP server.

Strings are shallowly embedded as `List Char` so that every operation of the
Python source (slicing, searching, splitting) has a direct executable
counterpart.  The operating-system surface that the source reaches through
`os`/`os.path` is embedded as follows:

* pure path functions (`os.path.expanduser`, `os.path.abspath`,
  `os.path.normpath`, `posixpath.join`) are translated from CPython's
  `posixpath` implementation;
* the state of the operating system (home directory, working directory,
  symlink resolution, file contents, directories, `stat` results) is a record
  `FS`; `os.path.realpath` is a field of that record because its value depends
  on the symlink state of the machine, with a concrete executable model
  `modelRealpath` of CPython's resolver used for concrete instances.
-/

namespace FileServer

/-- Strings of the Python source are embedded as lists of characters. -/
abbrev Str := List Char

/-- Boolean test that `pat` is a prefix of `s`; this embeds Python's
`str.startswith` used in `validate_path`. -/
def isPre : Str → Str → Bool
  | [], _ => true
  | _ :: _, [] => false
  | a :: as, b :: bs => a = b && isPre as bs

/-- Specification-level reading of `isPre`: some suffix completes `pat` to `s`. -/
theorem isPre_iff (pat s : Str) : isPre pat s = true ↔ ∃ t, pat ++ t = s := by
  induction pat generalizing s with
  | nil => simp [isPre]
  | cons a as ih =>
    cases s with
    | nil => simp [isPre]
    | cons b bs =>
      simp only [isPre, Bool.and_eq_true, decide_eq_true_eq, ih]
      constructor
      · rintro ⟨rfl, t, rfl⟩
        exact ⟨t, rfl⟩
      · rintro ⟨t, h⟩
        cases h
        exact ⟨rfl, t, rfl⟩

/-- Python's `str.split(sep)` for a one-character separator. -/
def splitOnChar (sep : Char) : Str → List Str
  | [] => [[]]
  | c :: rest =>
    if c = sep then [] :: splitOnChar sep rest
    else
      match splitOnChar sep rest with
      | [] => [[c]]
      | h :: t => (c :: h) :: t

/-- Python's `sep.join(parts)` for a one-character separator. -/
def joinWith (sep : Char) : List Str → Str
  | [] => []
  | [x] => x
  | x :: y :: t => x ++ sep :: joinWith sep (y :: t)

theorem splitOnChar_ne_nil (sep : Char) (s : Str) : splitOnChar sep s ≠ [] := by
  cases s with
  | nil => simp [splitOnChar]
  | cons c rest =>
    simp only [splitOnChar]
    split
    · simp
    · split <;> simp

theorem splitOnChar_append_sep (sep : Char) (x y : Str) :
    splitOnChar sep (x ++ sep :: y) = splitOnChar sep x ++ splitOnChar sep y := by
  induction x with
  | nil => simp [splitOnChar]
  | cons c x ih =>
    by_cases hc : c = sep
    · subst hc
      simp [splitOnChar, ih]
    · rcases hsx : splitOnChar sep x with _ | ⟨h, t⟩
      · exact absurd hsx (splitOnChar_ne_nil sep x)
      · have h1 : splitOnChar sep (c :: x) = (c :: h) :: t := by
          simp only [splitOnChar, if_neg hc, hsx]
        have h3 : splitOnChar sep (x ++ sep :: y) = h :: (t ++ splitOnChar sep y) := by
          rw [ih, hsx]; rfl
        have h2 : splitOnChar sep ((c :: x) ++ sep :: y)
            = (c :: h) :: (t ++ splitOnChar sep y) := by
          simp only [List.cons_append, splitOnChar, if_neg hc, List.append_eq, h3]
        rw [h1, h2]
        rfl

theorem splitOnChar_no_sep (sep : Char) (s : Str) (h : sep ∉ s) :
    splitOnChar sep s = [s] := by
  induction s with
  | nil => rfl
  | cons c rest ih =>
    simp only [List.mem_cons, not_or] at h
    have hc : ¬ c = sep := fun hh => h.1 hh.symm
    simp only [splitOnChar, if_neg hc, ih h.2]

theorem mem_splitOnChar_no_sep (sep : Char) (s : Str) :
    ∀ c ∈ splitOnChar sep s, sep ∉ c := by
  induction s with
  | nil => intro c hc; simp [splitOnChar] at hc; simp [hc]
  | cons a rest ih =>
    intro c hc
    by_cases ha : a = sep
    · subst ha
      simp only [splitOnChar, if_pos rfl] at hc
      rcases List.mem_cons.mp hc with rfl | h
      · simp
      · exact ih c h
    · simp only [splitOnChar, if_neg ha] at hc
      rcases hsx : splitOnChar sep rest with _ | ⟨h, t⟩
      · exact absurd hsx (splitOnChar_ne_nil sep rest)
      · rw [hsx] at hc
        rcases List.mem_cons.mp hc with rfl | hm
        · intro hmem
          rcases List.mem_cons.mp hmem with heq | hmem2
          · exact ha heq.symm
          · exact ih h (by rw [hsx]; exact List.mem_cons_self h t) hmem2
        · exact ih c (by rw [hsx]; exact List.mem_cons_of_mem h hm)

theorem splitOnChar_joinWith (sep : Char) :
    ∀ l : List Str, l ≠ [] → (∀ c ∈ l, sep ∉ c) →
      splitOnChar sep (joinWith sep l) = l := by
  intro l
  induction l with
  | nil => intro hne _; exact absurd rfl hne
  | cons x t ih =>
    intro _ hcl
    cases t with
    | nil => simpa [joinWith] using splitOnChar_no_sep sep x (hcl x (by simp))
    | cons y t2 =>
      have hx : splitOnChar sep x = [x] := splitOnChar_no_sep sep x (hcl x (by simp))
      have hj : joinWith sep (x :: y :: t2) = x ++ sep :: joinWith sep (y :: t2) := rfl
      rw [hj, splitOnChar_append_sep, hx,
        ih (by simp) (fun c hc => hcl c (List.mem_cons_of_mem x hc))]
      rfl

/-- Decimal rendering of a natural number (the `{n}` of a Python f-string). -/
def natToStrAux : Nat → Nat → Str → Str
  | 0, _, acc => acc
  | fuel + 1, n, acc =>
    let d := Char.ofNat (48 + n % 10)
    if n < 10 then d :: acc else natToStrAux fuel (n / 10) (d :: acc)

/-- Decimal rendering of a natural number. -/
def natToStr (n : Nat) : Str := natToStrAux (n + 1) n []

/-- Python's `list[i]` on embedded lists, with a default (list indices produced
by `difflib` are always in range). -/
def getAt (l : List Str) (i : Nat) : Str := l.getD i []

/-- Python's `l[i:j]` slice for indices `0 ≤ i ≤ j` as used by `difflib`. -/
def slice (l : List Str) (i j : Nat) : List Str := (l.drop i).take (j - i)

/-- Python's `s.rstrip(sep)` for the single character `/`, used by
`os.path.expanduser` on the home directory. -/
def rstripSlash (s : Str) : Str := (s.reverse.dropWhile (· = '/')).reverse

/-! ### Pure path helpers, translated from CPython's `posixpath` -/

/-- Test that a path string is absolute (`posixpath.isabs`). -/
def isAbsB (p : Str) : Bool := isPre ['/'] p

/-- Source `expand_home` (a wrapper around `os.path.expanduser`): a leading
`~` or `~/...` is replaced by the home directory (stripped of trailing
slashes, with the empty result turned into `/`, as in CPython).  CPython also
expands `~user` through the password database; the model keeps the
unknown-user behaviour of returning such paths unchanged. -/
def expand_home (home : Str) (p : Str) : Str :=
  match p with
  | [] => []
  | c :: rest =>
    if c = '~' then
      if rest = [] ∨ isPre ['/'] rest then
        let uh := rstripSlash home
        if uh ++ rest = [] then ['/'] else uh ++ rest
      else p
    else p

/-- One step of `posixpath.normpath`'s component loop: skip empty and `.`
components, append ordinary components, and let `..` pop the previous
component unless the path is relative and exhausted (or stacked on `..`). -/
def normStep (initSl : Nat) (acc : List Str) (comp : Str) : List Str :=
  if comp = [] ∨ comp = ['.'] then acc
  else if comp ≠ ['.', '.'] ∨ (initSl = 0 ∧ acc = []) ∨ acc.getLast? = some ['.', '.'] then
    acc ++ [comp]
  else if acc ≠ [] then acc.dropLast
  else acc

/-- The `initial_slashes` count of `posixpath.normpath`: one leading slash is
kept, exactly two (the POSIX special case) are kept as two. -/
def initialSlashes (p : Str) : Nat :=
  if isPre ['/'] p then
    if isPre ['/', '/'] p ∧ ¬ isPre ['/', '/', '/'] p then 2 else 1
  else 0

/-- Source `normalize_path`, i.e. `posixpath.normpath`: collapse separators and
`.`/`..` segments, preserving one or (POSIX special case) two leading
slashes. -/
def normalize_path (p : Str) : Str :=
  if p = [] then ['.']
  else
    let initSl := initialSlashes p
    let comps := splitOnChar '/' p
    let newComps := comps.foldl (normStep initSl) []
    let joined := List.replicate initSl '/' ++ joinWith '/' newComps
    if joined = [] then ['.'] else joined

/-- CPython's `posixpath.join` restricted to the two-argument form used by the
source. -/
def joinPath (a b : Str) : Str :=
  if isAbsB b then b
  else if a = [] then b
  else if a.getLast? = some '/' then a ++ b
  else a ++ '/' :: b

/-- CPython's `os.path.abspath`: join onto the current working directory if
relative, then normalize. -/
def abspath (cwd p : Str) : Str :=
  if isAbsB p then normalize_path p else normalize_path (joinPath cwd p)

/-- One component step of CPython's `posixpath.realpath` resolver over a table
of symlinks whose targets are already fully resolved absolute paths: `.` is
skipped, `..` pops the resolved prefix, and a component that names a symlink
is replaced by the link's target.  Non-existent components are simply kept:
CPython's `realpath` (with the default `strict=False`) never raises for a
missing path. -/
def realStep (links : List (Str × Str)) (acc : Str) (comp : Str) : Str :=
  if comp = [] ∨ comp = ['.'] then acc
  else if comp = ['.', '.'] then
    match (splitOnChar '/' acc).dropLast with
    | [] => ['/']
    | parts => if joinWith '/' parts = [] then ['/'] else joinWith '/' parts
  else
    let newp := if acc.getLast? = some '/' then acc ++ comp else acc ++ '/' :: comp
    match links.lookup newp with
    | some target => target
    | none => newp

/-- Executable model of CPython's `os.path.realpath` (POSIX, `strict=False`)
for filesystem states whose symlink targets are fully resolved absolute
paths.  The input is assumed absolute, as in `validate_path` where `realpath`
is always applied to the result of `abspath`. -/
def modelRealpath (links : List (Str × Str)) (p : Str) : Str :=
  (splitOnChar '/' p).foldl (realStep links) ['/']

/-! ### Filesystem state and error model -/

/-- Stat information reported by `os.stat`.  The time stamps and the octal
mode are carried as the strings CPython would render for them: the claims
under verification never inspect their numeric values. -/
structure Stat where
  size : Nat
  created : Str
  modified : Str
  accessed : Str
  mode : Str
deriving DecidableEq, Repr

/-- The operating-system state visible to the server.

`files` maps an absolute path of a regular file to its decoded text content
(the source reads files in text mode, so contents are modelled after newline
translation and decoding).  `realpath` is `os.path.realpath`: `none` models
the call raising an exception, which the source catches; `some r` models it
returning `r`.  Concrete instances use `modelRealpath`. -/
structure FS where
  home : Str
  cwd : Str
  realpath : Str → Option Str
  files : List (Str × Str)
  dirs : List Str
  statInfo : Str → Option Stat

/-- Structured embedding of the exceptions the source raises; each constructor
records the payload of the corresponding Python message.

* `accessDenied p`: `ValueError(f"Access denied: {p} is outside allowed directories")`,
  carrying the original, unresolved input path;
* `textNotFound t`: `ValueError(f"Text to replace not found: {t}...")` with
  `t` the first 50 characters of the missing text;
* `ambiguousMatch t`: `ValueError(f"Text appears multiple times in file: {t}...")`;
* `headTailConflict`: `ValueError("Cannot specify both head and tail parameters")`;
* `ioError p`: an `OSError` from the underlying filesystem call on `p`;
* `recursionError`: Python's `RecursionError` once the interpreter's
  recursion limit is exhausted. -/
inductive Err where
  | accessDenied (path : Str)
  | textNotFound (preview : Str)
  | ambiguousMatch (preview : Str)
  | headTailConflict
  | ioError (path : Str)
  | recursionError
deriving DecidableEq, Repr

/-- Decidable equality of results, used to evaluate concrete instances. -/
instance {e a : Type} [DecidableEq e] [DecidableEq a] : DecidableEq (Except e a) := fun x y =>
  match x, y with
  | .ok v, .ok w =>
    if h : v = w then isTrue (by rw [h]) else isFalse (fun hh => h (Except.ok.inj hh))
  | .ok _, .error _ => isFalse (fun hh => Except.noConfusion hh)
  | .error _, .ok _ => isFalse (fun hh => Except.noConfusion hh)
  | .error v, .error w =>
    if h : v = w then isTrue (by rw [h]) else isFalse (fun hh => h (Except.error.inj hh))

/-- The `for allowed_dir in allowed_directories` loop of `validate_path`:
return the normalized path on the first allowed directory that is a plain
string prefix of it, otherwise raise `Access denied` carrying the original
input. -/
def checkRoots : List Str → Str → Str → Except Err Str
  | [], _, fp => .error (.accessDenied fp)
  | d :: ds, n, fp => if isPre d n then .ok n else checkRoots ds n fp

/-- Source `validate_path`: expand `~`, make the path absolute, resolve
symlinks (falling back to the unresolved absolute path if `os.path.realpath`
raises), normalize, and accept exactly when some allowed directory is a plain
string prefix of the normalized path. -/
def validate_path (fs : FS) (allowed_directories : List Str) (file_path : Str) :
    Except Err Str :=
  let expanded := expand_home fs.home file_path
  let absolute := abspath fs.cwd expanded
  let normalized :=
    match fs.realpath absolute with
    | some resolved => normalize_path resolved
    | none => normalize_path absolute
  checkRoots allowed_directories normalized file_path

/-- The normalization pipeline of `validate_path` before the containment
check: the try/except around `os.path.realpath` followed by
`normalize_path`. -/
def resolvedNorm (fs : FS) (absolute : Str) : Str :=
  match fs.realpath absolute with
  | some resolved => normalize_path resolved
  | none => normalize_path absolute

/-- The normalized, resolved form of a raw path, exactly as `validate_path`
computes it. -/
def normalizedOf (fs : FS) (file_path : Str) : Str :=
  resolvedNorm fs (abspath fs.cwd (expand_home fs.home file_path))

theorem validate_path_eq (fs : FS) (roots : List Str) (p : Str) :
    validate_path fs roots p = checkRoots roots (normalizedOf fs p) p := rfl

theorem checkRoots_ok_iff (roots : List Str) (n fp x : Str) :
    checkRoots roots n fp = .ok x ↔ x = n ∧ ∃ d ∈ roots, isPre d n = true := by
  induction roots with
  | nil => simp [checkRoots]
  | cons d ds ih =>
    simp only [checkRoots]
    split
    · next h =>
      constructor
      · rintro ⟨rfl⟩
        exact ⟨rfl, d, by simp, h⟩
      · rintro ⟨rfl, _⟩
        rfl
    · next h =>
      rw [ih]
      constructor
      · rintro ⟨rfl, e, he, hpre⟩
        exact ⟨rfl, e, by simp [he], hpre⟩
      · rintro ⟨rfl, e, he, hpre⟩
        rcases List.mem_cons.mp he with rfl | he2
        · exact absurd hpre (by simpa using h)
        · exact ⟨rfl, e, he2, hpre⟩

theorem checkRoots_err_iff (roots : List Str) (n fp : Str) :
    checkRoots roots n fp = .error (.accessDenied fp) ↔
      ¬ ∃ d ∈ roots, isPre d n = true := by
  induction roots with
  | nil => simp [checkRoots]
  | cons d ds ih =>
    simp only [checkRoots]
    split
    · next h =>
      simp only [iff_false_intro (by simp : ¬ (Except.ok n = Except.error (Err.accessDenied fp)))]
      constructor
      · intro hc
        exact absurd hc (by simp)
      · intro hc
        exact absurd ⟨d, by simp, h⟩ hc
    · next h =>
      rw [ih]
      constructor
      · rintro hne ⟨e, he, hpre⟩
        rcases List.mem_cons.mp he with rfl | he2
        · exact absurd hpre (by simpa using h)
        · exact hne ⟨e, he2, hpre⟩
      · intro hne ⟨e, he, hpre⟩
        exact hne ⟨e, by simp [he], hpre⟩

/-! ### The edit engine: Python string primitives -/

/-- Python's substring test `pat in s`. -/
def containsSub (s pat : Str) : Bool :=
  match s with
  | [] => isPre pat []
  | c :: rest => isPre pat (c :: rest) || containsSub rest pat

/-- Cursor of Python's `str.count` for a non-empty pattern `p :: ps`: scan left
to right, counting non-overlapping occurrences and skipping past each match.
Each step consumes at least one character, so the fuel — initialized to the
string length by `countFrom` — is never exhausted. -/
def countFromAux (p : Char) (ps : Str) : Nat → Str → Nat
  | 0, _ => 0
  | _ + 1, [] => 0
  | fuel + 1, c :: rest =>
    if isPre (p :: ps) (c :: rest) then 1 + countFromAux p ps fuel (rest.drop ps.length)
    else countFromAux p ps fuel rest

/-- Python's `str.count` scan for a non-empty pattern. -/
def countFrom (p : Char) (ps : Str) (s : Str) : Nat := countFromAux p ps s.length s

theorem countFromAux_congr (p : Char) (ps : Str) :
    ∀ (f1 f2 : Nat) (s : Str), s.length ≤ f1 → s.length ≤ f2 →
      countFromAux p ps f1 s = countFromAux p ps f2 s := by
  intro f1
  induction f1 with
  | zero =>
    intro f2 s h1 _
    have hs : s = [] := List.eq_nil_of_length_eq_zero (by omega)
    subst hs
    cases f2 <;> rfl
  | succ f1 ih =>
    intro f2 s h1 h2
    cases s with
    | nil => cases f2 <;> rfl
    | cons c rest =>
      cases f2 with
      | zero => simp at h2
      | succ f2 =>
        simp only [countFromAux]
        simp only [List.length_cons] at h1 h2
        have hd1 : (rest.drop ps.length).length ≤ f1 := by
          simp only [List.length_drop]
          omega
        have hd2 : (rest.drop ps.length).length ≤ f2 := by
          simp only [List.length_drop]
          omega
        rw [ih f2 (rest.drop ps.length) hd1 hd2, ih f2 rest (by omega) (by omega)]

theorem countFrom_nil (p : Char) (ps : Str) : countFrom p ps [] = 0 := rfl

theorem countFrom_cons (p : Char) (ps : Str) (c : Char) (rest : Str) :
    countFrom p ps (c :: rest)
      = if isPre (p :: ps) (c :: rest) then 1 + countFrom p ps (rest.drop ps.length)
        else countFrom p ps rest := by
  show countFromAux p ps (rest.length + 1) (c :: rest) = _
  simp only [countFromAux]
  rw [countFromAux_congr p ps rest.length (rest.drop ps.length).length
    (rest.drop ps.length) (by simp) (Nat.le_refl _)]
  rfl

/-- Python's `str.count`: non-overlapping occurrences counted left to right;
an empty pattern is counted once per position, `len + 1` times. -/
def pyCount (s pat : Str) : Nat :=
  match pat with
  | [] => s.length + 1
  | p :: ps => countFrom p ps s

/-- Replace the first occurrence of a non-empty pattern. -/
def replaceFirstAux (old new : Str) : Str → Str
  | [] => []
  | c :: rest =>
    if isPre old (c :: rest) then new ++ (c :: rest).drop old.length
    else c :: replaceFirstAux old new rest

/-- Python's `str.replace(old, new, 1)`: replace the first occurrence of
`old`; an empty `old` inserts `new` at the front. -/
def pyReplaceFirst (s old new : Str) : Str :=
  if old = [] then new ++ s else replaceFirstAux old new s

/-- One `{oldText, newText}` entry of the `edits` argument. -/
structure EditOp where
  oldText : Str
  newText : Str
deriving DecidableEq, Repr

/-- The edit loop of `apply_file_edits`, applied to the in-memory working copy:
for each edit in list order, raise `textNotFound` if `oldText` is not a
substring of the current content, raise `ambiguousMatch` if its
(non-overlapping) `str.count` exceeds one, and otherwise replace its first
occurrence by `newText`.  Error previews carry `old_text[:50]`. -/
def applyEditsLoop : Str → List EditOp → Except Err Str
  | content, [] => .ok content
  | content, e :: rest =>
    if containsSub content e.oldText = false then
      .error (.textNotFound (e.oldText.take 50))
    else if pyCount content e.oldText > 1 then
      .error (.ambiguousMatch (e.oldText.take 50))
    else applyEditsLoop (pyReplaceFirst content e.oldText e.newText) rest

/-- Source `read_file_content`: the text of the file, or `none` when the open
raises (missing file).  `FS.files` stores decoded text, so the UTF-8 →
latin-1 decoding fallback of the source — which never fails on content — is
already absorbed into the state. -/
def read_file_content (fs : FS) (file_path : Str) : Option Str :=
  fs.files.lookup file_path

/-- CPython's `posixpath.dirname`: everything before the last slash, with
trailing slashes stripped unless the result is all slashes. -/
def dirname (p : Str) : Str :=
  match p.reverse.findIdx? (· = '/') with
  | none => []
  | some k =>
    let head := p.take (p.length - k)
    if head ≠ [] ∧ ¬ head.all (· = '/') then rstripSlash head else head

/-- Ancestor chain of a path, child first, used to model `os.makedirs`. -/
def parentChain : Nat → Str → List Str
  | 0, _ => []
  | fuel + 1, p =>
    if p = [] then []
    else if dirname p = p then [p]
    else p :: parentChain fuel (dirname p)

/-- Record a directory in the state if it is not already present. -/
def addDir (fs : FS) (d : Str) : FS :=
  if d ∈ fs.dirs then fs else { fs with dirs := fs.dirs ++ [d] }

/-- Model of `os.makedirs(path, exist_ok=True)`: create the path and all its
missing ancestors, top-down. -/
def makedirsModel (fs : FS) (p : Str) : FS :=
  (parentChain (p.length + 1) p).foldr (fun d acc => addDir acc d) fs

/-- Insert or overwrite an association-list entry in place. -/
def upsert (l : List (Str × Str)) (k v : Str) : List (Str × Str) :=
  match l with
  | [] => [(k, v)]
  | (k2, v2) :: rest => if k2 = k then (k, v) :: rest else (k2, v2) :: upsert rest k v

/-- Source `write_file_content`: ensure the parent directory exists
(`os.makedirs(os.path.dirname(file_path), exist_ok=True)`) and write the
content.  I/O failures of the write itself (permissions, disk errors) are not
modelled. -/
def write_file_content (fs : FS) (file_path content : Str) : FS :=
  let fs1 := makedirsModel fs (dirname file_path)
  { fs1 with files := upsert fs1.files file_path content }

/-! ### Python `str.splitlines` and text-file line iteration -/

/-- Line-boundary characters of Python's `str.splitlines`. -/
def isLineBreak (c : Char) : Bool :=
  c == '\n' || c == '\r' || c.toNat == 11 || c.toNat == 12 || c.toNat == 28 ||
    c.toNat == 29 || c.toNat == 30 || c.toNat == 133 || c.toNat == 8232 ||
    c.toNat == 8233

/-- Worker for `pySplitlines`; the second argument is the current line,
reversed. -/
def pySplitlinesAux : Str → Str → List Str
  | [], cur => if cur = [] then [] else [cur.reverse]
  | '\r' :: '\n' :: rest, cur => cur.reverse :: pySplitlinesAux rest []
  | c :: rest, cur =>
    if isLineBreak c then cur.reverse :: pySplitlinesAux rest []
    else pySplitlinesAux rest (c :: cur)

/-- Python's `str.splitlines()` (without keepends): split on the universal
line boundaries, treating `\r\n` as one boundary, with no empty final line. -/
def pySplitlines (s : Str) : List Str := pySplitlinesAux s []

/-- Worker for `fileLines`. -/
def fileLinesAux : Str → Str → List Str
  | [], cur => if cur = [] then [] else [cur.reverse]
  | c :: rest, cur =>
    if c = '\n' then (c :: cur).reverse :: fileLinesAux rest []
    else fileLinesAux rest (c :: cur)

/-- Line iteration of a text-mode Python file (`readlines` and `for line in
f`), keeping the terminating `\n` on each line; universal-newline translation
has already been applied to the stored content. -/
def fileLines (s : Str) : List Str := fileLinesAux s []

/-! ### `difflib.SequenceMatcher(None, a, b)` and `difflib.unified_diff`,
translated from CPython's `difflib` for the `isjunk=None` configuration used
by the source (with `isjunk=None` the junk-extension passes of
`find_longest_match` are no-ops and are omitted). -/

/-- Opcode tags of `SequenceMatcher.get_opcodes`. -/
inductive Tag where
  | replace
  | delete
  | insert
  | equal
deriving DecidableEq, Repr

/-- One `(tag, i1, i2, j1, j2)` opcode. -/
structure Opcode where
  tag : Tag
  i1 : Nat
  i2 : Nat
  j1 : Nat
  j2 : Nat
deriving DecidableEq, Repr

/-- One `(besti, bestj, size)` matching block. -/
structure MatchTriple where
  besti : Nat
  bestj : Nat
  size : Nat
deriving DecidableEq, Repr

/-- Append an index to the entry of `key` in the `b2j` table
(`b2j.setdefault(elt, []).append(i)`); index lists stay ascending because
indices are added in order. -/
def b2jAdd (m : List (Str × List Nat)) (key : Str) (idx : Nat) :
    List (Str × List Nat) :=
  match m with
  | [] => [(key, [idx])]
  | (k, v) :: rest =>
    if k = key then (k, v ++ [idx]) :: rest else (k, v) :: b2jAdd rest key idx

/-- `SequenceMatcher.__chain_b`: map each line of `b` to its ascending list of
indices, then (the `autojunk` heuristic) delete entries occurring more than
`len(b) // 100 + 1` times when `b` has at least 200 lines. -/
def chainB (b : List Str) : List (Str × List Nat) :=
  let m := b.enum.foldl (fun m p => b2jAdd m p.2 p.1) []
  if b.length ≥ 200 then m.filter (fun kv => ¬ kv.2.length > b.length / 100 + 1)
  else m

/-- Lookup in the `b2j` table (`b2j.get(elt, [])`). -/
def b2jGet (m : List (Str × List Nat)) (key : Str) : List Nat :=
  (m.lookup key).getD []

/-- Lookup in the `j2len` row (`j2len.get(j - 1, 0)`). -/
def j2lenGet (m : List (Nat × Nat)) (j : Nat) : Nat := (m.lookup j).getD 0

/-- Inner `for j in b2j.get(a[i], [])` loop of `find_longest_match`: skip
indices before `blo`, stop at `bhi` (index lists are ascending, so Python's
`break` is a stop), and grow the `newj2len` row while tracking the best
match.  Python's `j2len.get(j-1, 0)` at `j = 0` reads key `-1`, which is
never present, hence the explicit zero. -/
def innerJ (j2len : List (Nat × Nat)) (blo bhi i : Nat) :
    List Nat → List (Nat × Nat) → MatchTriple → List (Nat × Nat) × MatchTriple
  | [], newj2len, best => (newj2len, best)
  | j :: js, newj2len, best =>
    if j < blo then innerJ j2len blo bhi i js newj2len best
    else if j ≥ bhi then (newj2len, best)
    else
      let k := (if j = 0 then 0 else j2lenGet j2len (j - 1)) + 1
      let best2 := if k > best.size then MatchTriple.mk (i + 1 - k) (j + 1 - k) k else best
      innerJ j2len blo bhi i js ((j, k) :: newj2len) best2

/-- Outer `for i in range(alo, ahi)` loop of `find_longest_match`. -/
def flmLoop (b2jt : List (Str × List Nat)) (a : List Str) (blo bhi : Nat) :
    List Nat → List (Nat × Nat) → MatchTriple → MatchTriple
  | [], _, best => best
  | i :: is, j2len, best =>
    let js := b2jGet b2jt (getAt a i)
    let r := innerJ j2len blo bhi i js [] best
    flmLoop b2jt a blo bhi is r.1 r.2

/-- Extension of the best match to the left over equal elements; each step
decrements `besti`, so the fuel `t.besti` given by `extendLeft` is never
exhausted. -/
def extendLeftAux (a b : List Str) (alo blo : Nat) : Nat → MatchTriple → MatchTriple
  | 0, t => t
  | fuel + 1, t =>
    if alo < t.besti ∧ blo < t.bestj ∧
        getAt a (t.besti - 1) = getAt b (t.bestj - 1) then
      extendLeftAux a b alo blo fuel ⟨t.besti - 1, t.bestj - 1, t.size + 1⟩
    else t

/-- Extension of the best match to the left over equal elements. -/
def extendLeft (a b : List Str) (alo blo : Nat) (t : MatchTriple) : MatchTriple :=
  extendLeftAux a b alo blo t.besti t

/-- Extension of the best match to the right over equal elements; each step
increments `size` while `besti + size < ahi` holds, so the fuel `ahi` given
by `extendRight` is never exhausted. -/
def extendRightAux (a b : List Str) (ahi bhi : Nat) : Nat → MatchTriple → MatchTriple
  | 0, t => t
  | fuel + 1, t =>
    if t.besti + t.size < ahi ∧ t.bestj + t.size < bhi ∧
        getAt a (t.besti + t.size) = getAt b (t.bestj + t.size) then
      extendRightAux a b ahi bhi fuel ⟨t.besti, t.bestj, t.size + 1⟩
    else t

/-- Extension of the best match to the right over equal elements. -/
def extendRight (a b : List Str) (ahi bhi : Nat) (t : MatchTriple) : MatchTriple :=
  extendRightAux a b ahi bhi ahi t

/-- `SequenceMatcher.find_longest_match(alo, ahi, blo, bhi)` for
`isjunk=None`. -/
def find_longest_match (a b : List Str) (b2jt : List (Str × List Nat))
    (alo ahi blo bhi : Nat) : MatchTriple :=
  let best := flmLoop b2jt a blo bhi (List.range' alo (ahi - alo)) [] ⟨alo, blo, 0⟩
  extendRight a b ahi bhi (extendLeft a b alo blo best)

/-- Queue loop of `get_matching_blocks`.  Python pops from the end of its
queue list; the model keeps the top of the stack at the head, pushing the
left sub-region before the right one so the right is processed first.  Each
push shrinks the region, so the loop runs at most twice `len(a) + len(b)`
plus one times and the fuel passed by `get_matching_blocks` is never
exhausted. -/
def mbLoop (a b : List Str) (b2jt : List (Str × List Nat)) :
    Nat → List (Nat × Nat × Nat × Nat) → List MatchTriple → List MatchTriple
  | 0, _, acc => acc
  | _ + 1, [], acc => acc
  | fuel + 1, (alo, ahi, blo, bhi) :: queue, acc =>
    let t := find_longest_match a b b2jt alo ahi blo bhi
    if t.size ≠ 0 then
      let q1 :=
        if alo < t.besti ∧ blo < t.bestj then (alo, t.besti, blo, t.bestj) :: queue
        else queue
      let q2 :=
        if t.besti + t.size < ahi ∧ t.bestj + t.size < bhi then
          (t.besti + t.size, ahi, t.bestj + t.size, bhi) :: q1
        else q1
      mbLoop a b b2jt fuel q2 (t :: acc)
    else mbLoop a b b2jt fuel queue acc

/-- Lexicographic order on matching blocks, as Python sorts its
`(i, j, k)` tuples. -/
def tripleLE (x y : MatchTriple) : Bool :=
  if x.besti ≠ y.besti then Nat.blt x.besti y.besti
  else if x.bestj ≠ y.bestj then Nat.blt x.bestj y.bestj
  else Nat.ble x.size y.size

/-- Stable insertion into a sorted list. -/
def insSorted {α : Type} (le : α → α → Bool) (x : α) : List α → List α
  | [] => [x]
  | y :: ys => if le x y then x :: y :: ys else y :: insSorted le x ys

/-- Stable sort (Python's `list.sort`) by a boolean total preorder. -/
def stableSort {α : Type} (le : α → α → Bool) (l : List α) : List α :=
  l.foldr (insSorted le) []

/-- Second phase of `get_matching_blocks`: merge adjacent blocks. -/
def mergeBlocks : Nat → Nat → Nat → List MatchTriple → List MatchTriple
  | i1, j1, k1, [] => if k1 ≠ 0 then [⟨i1, j1, k1⟩] else []
  | i1, j1, k1, t :: rest =>
    if i1 + k1 = t.besti ∧ j1 + k1 = t.bestj then
      mergeBlocks i1 j1 (k1 + t.size) rest
    else if k1 ≠ 0 then ⟨i1, j1, k1⟩ :: mergeBlocks t.besti t.bestj t.size rest
    else mergeBlocks t.besti t.bestj t.size rest

/-- `SequenceMatcher.get_matching_blocks`: recursive longest-match blocks,
sorted, merged when adjacent, with the `(la, lb, 0)` sentinel appended. -/
def get_matching_blocks (a b : List Str) : List MatchTriple :=
  let b2jt := chainB b
  let blocks := mbLoop a b b2jt (2 * (a.length + b.length) + 4)
    [(0, a.length, 0, b.length)] []
  mergeBlocks 0 0 0 (stableSort tripleLE blocks) ++ [⟨a.length, b.length, 0⟩]

/-- Loop of `get_opcodes` over the matching blocks. -/
def opcodesLoop : Nat → Nat → List MatchTriple → List Opcode
  | _, _, [] => []
  | i, j, t :: rest =>
    let tagged : List Opcode :=
      if i < t.besti ∧ j < t.bestj then [⟨.replace, i, t.besti, j, t.bestj⟩]
      else if i < t.besti then [⟨.delete, i, t.besti, j, t.bestj⟩]
      else if j < t.bestj then [⟨.insert, i, t.besti, j, t.bestj⟩]
      else []
    let i2 := t.besti + t.size
    let j2 := t.bestj + t.size
    let eqOp : List Opcode :=
      if t.size ≠ 0 then [⟨.equal, t.besti, i2, t.bestj, j2⟩] else []
    tagged ++ eqOp ++ opcodesLoop i2 j2 rest

/-- `SequenceMatcher.get_opcodes`. -/
def get_opcodes (a b : List Str) : List Opcode :=
  opcodesLoop 0 0 (get_matching_blocks a b)

/-- Replace the last element of a list. -/
def modLast {α : Type} (f : α → α) : List α → List α
  | [] => []
  | [x] => [f x]
  | x :: y :: t => x :: modLast f (y :: t)

/-- Grouping loop of `get_grouped_opcodes`: an `equal` run longer than `2n`
closes the current group with its first `n` lines of context and opens the
next group with its last `n`; a final group is emitted unless it is a single
`equal` opcode. -/
def groupSplit (n : Nat) : List Opcode → List Opcode → List (List Opcode)
  | [], group =>
    if group ≠ [] ∧ ¬ (group.length = 1 ∧ (group.headD ⟨.equal, 0, 0, 0, 0⟩).tag = .equal)
    then [group] else []
  | c :: rest, group =>
    if c.tag = .equal ∧ c.i2 - c.i1 > n + n then
      (group ++ [⟨.equal, c.i1, min c.i2 (c.i1 + n), c.j1, min c.j2 (c.j1 + n)⟩]) ::
        groupSplit n rest [⟨.equal, max c.i1 (c.i2 - n), c.i2, max c.j1 (c.j2 - n), c.j2⟩]
    else groupSplit n rest (group ++ [c])

/-- `SequenceMatcher.get_grouped_opcodes(n)`: opcodes with the leading and
trailing `equal` runs trimmed to `n` lines of context, split into groups at
long `equal` runs.  Python's `max(i1, i2 - n)` over possibly negative ints
agrees with truncated natural subtraction. -/
def get_grouped_opcodes (a b : List Str) (n : Nat) : List (List Opcode) :=
  let codes0 := get_opcodes a b
  let codes1 := if codes0 = [] then [⟨.equal, 0, 1, 0, 1⟩] else codes0
  let codes2 :=
    match codes1 with
    | [] => []
    | c :: rest =>
      (if c.tag = .equal then
        Opcode.mk c.tag (max c.i1 (c.i2 - n)) c.i2 (max c.j1 (c.j2 - n)) c.j2
      else c) :: rest
  let codes3 := modLast
    (fun c =>
      if c.tag = .equal then
        Opcode.mk c.tag c.i1 (min c.i2 (c.i1 + n)) c.j1 (min c.j2 (c.j1 + n))
      else c)
    codes2
  groupSplit n codes3 []

/-- `difflib._format_range_unified`. -/
def fmtRangeUnified (start stop : Nat) : Str :=
  let len := stop - start
  if len = 1 then natToStr (start + 1)
  else natToStr (if len = 0 then start else start + 1) ++ ',' :: natToStr len

/-- Per-opcode body lines of `unified_diff`: context lines prefixed by a
space, removed lines by `-`, added lines by `+`. -/
def opcodeLines (a b : List Str) (c : Opcode) : List Str :=
  if c.tag = .equal then (slice a c.i1 c.i2).map (fun l => ' ' :: l)
  else
    (if c.tag = .replace ∨ c.tag = .delete then
      (slice a c.i1 c.i2).map (fun l => '-' :: l)
    else []) ++
    (if c.tag = .replace ∨ c.tag = .insert then
      (slice b c.j1 c.j2).map (fun l => '+' :: l)
    else [])

/-- The `@@ -r1 +r2 @@` hunk header of a group (groups produced by
`get_grouped_opcodes` are never empty; the empty case is unreachable). -/
def hunkHeader (g : List Opcode) : Str :=
  match g with
  | [] => []
  | c :: rest =>
    let lastc := rest.getLastD c
    ("@@ -").toList ++ fmtRangeUnified c.i1 lastc.i2 ++
      (" +").toList ++ fmtRangeUnified c.j1 lastc.j2 ++ (" @@").toList

/-- All lines contributed by one opcode group. -/
def groupLines (a b : List Str) (g : List Opcode) : List Str :=
  hunkHeader g :: g.flatMap (opcodeLines a b)

/-- `difflib.unified_diff(a, b, lineterm='')` with the default empty file
labels and `n=3`: nothing when there are no groups, otherwise its own
`--- `/`+++ ` header pair (labels empty) followed by the hunks. -/
def unified_diff (a b : List Str) : List Str :=
  match get_grouped_opcodes a b 3 with
  | [] => []
  | g :: gs => ("--- ").toList :: ("+++ ").toList :: (g :: gs).flatMap (groupLines a b)

/-- The diff assembled by `apply_file_edits`: two `---`/`+++` lines labelled
with the file path, then the entire `unified_diff` output of the old versus
new `splitlines`. -/
def makeDiffLines (file_path old new : Str) : List Str :=
  (("--- ").toList ++ file_path) :: (("+++ ").toList ++ file_path) ::
    unified_diff (pySplitlines old) (pySplitlines new)

/-- Source `apply_file_edits`: read the file, run the edit loop on the
in-memory copy (any failure aborts before anything is written), write the
final content unless `dry_run`, and return the assembled diff joined with
newlines. -/
def apply_file_edits (fs : FS) (file_path : Str) (edits : List EditOp)
    (dry_run : Bool) : FS × Except Err Str :=
  match read_file_content fs file_path with
  | none => (fs, .error (.ioError file_path))
  | some content =>
    match applyEditsLoop content edits with
    | .error e => (fs, .error e)
    | .ok new_content =>
      let fs1 := if dry_run then fs else write_file_content fs file_path new_content
      (fs1, .ok (joinWith '\n' (makeDiffLines file_path content new_content)))

/-! ### Output-formatting helpers used by the tool layer -/

/-- Lexicographic comparison of strings by code point, Python's `str`
ordering as used by `sorted`. -/
def strLE : Str → Str → Bool
  | [], _ => true
  | _ :: _, [] => false
  | a :: as, b :: bs => if a = b then strLE as bs else Nat.blt a.toNat b.toNat

/-- Rendering of the exact rational `num / den` with one decimal digit,
rounding half to even as Python's `format` does on exact values; artifacts of
binary floating point are not modelled (they are invisible to every claim
under verification). -/
def fmtFixed1 (num den : Nat) : Str :=
  let scaled := num * 10
  let qt := scaled / den
  let r := scaled % den
  let rounded :=
    if 2 * r > den then qt + 1
    else if 2 * r < den then qt
    else if qt % 2 = 1 then qt + 1 else qt
  natToStr (rounded / 10) ++ '.' :: natToStr (rounded % 10)

/-- Unit loop of `format_size`; `den` is the power of 1024 divided out so
far. -/
def format_size_loop (size den : Nat) : List Str → Str
  | [] => fmtFixed1 size den ++ ' ' :: ("PB").toList
  | u :: us =>
    if size < den * 1024 then fmtFixed1 size den ++ ' ' :: u
    else format_size_loop size (den * 1024) us

/-- Source `format_size`: human-readable size with one decimal. -/
def format_size (size : Nat) : Str :=
  format_size_loop size 1
    [("B").toList, ("KB").toList, ("MB").toList, ("GB").toList, ("TB").toList]

/-- The standard base64 alphabet. -/
def b64Alphabet : Str :=
  ("ABCDEFGHIJKLMNOPQRSTUVWXYZabcdefghijklmnopqrstuvwxyz0123456789+/").toList

/-- One base64 digit. -/
def b64Char (n : Nat) : Char := b64Alphabet.getD n 'A'

/-- Standard base64 of a byte list, with `=` padding. -/
def b64encodeBytes : List Nat → Str
  | [] => []
  | [x] => [b64Char (x / 4), b64Char (x % 4 * 16), '=', '=']
  | [x, y] => [b64Char (x / 4), b64Char (x % 4 * 16 + y / 16), b64Char (y % 16 * 4), '=']
  | x :: y :: z :: rest =>
    b64Char (x / 4) :: b64Char (x % 4 * 16 + y / 16) ::
      b64Char (y % 16 * 4 + z / 64) :: b64Char (z % 64) :: b64encodeBytes rest

/-- Source `read_file_as_base64` applied to a file's content.  The source
reads raw bytes; `FS.files` stores decoded text, so each character's code
point modulo 256 stands in for one byte — exact for latin-1-range
content. -/
def read_file_as_base64 (content : Str) : Str :=
  b64encodeBytes (content.map (fun c => c.toNat % 256))

/-- Lowercase an embedded string. -/
def toLowerStr (s : Str) : Str := s.map Char.toLower

/-- Extension of a path (including the dot), from the last `.` of the
basename, as `os.path.splitext` computes it for ordinary names. -/
def extOf (p : Str) : Str :=
  let base :=
    match p.reverse.findIdx? (· = '/') with
    | none => p
    | some k => p.drop (p.length - k)
  match base.reverse.findIdx? (· = '.') with
  | none => []
  | some k => base.drop (base.length - 1 - k)

/-- Representative subset of the `mimetypes` extension table; the claims
under verification never depend on particular entries. -/
def mimeTable : List (Str × Str) :=
  [((".png").toList, ("image/png").toList),
   ((".jpg").toList, ("image/jpeg").toList),
   ((".jpeg").toList, ("image/jpeg").toList),
   ((".gif").toList, ("image/gif").toList),
   ((".bmp").toList, ("image/bmp").toList),
   ((".mp3").toList, ("audio/mpeg").toList),
   ((".wav").toList, ("audio/x-wav").toList),
   ((".ogg").toList, ("audio/ogg").toList),
   ((".mp4").toList, ("video/mp4").toList),
   ((".txt").toList, ("text/plain").toList),
   ((".html").toList, ("text/html").toList),
   ((".json").toList, ("application/json").toList),
   ((".pdf").toList, ("application/pdf").toList)]

/-- Model of `mimetypes.guess_type`: look the lowercased extension up in the
table. -/
def guessMime (p : Str) : Option Str := mimeTable.lookup (toLowerStr (extOf p))

/-- Model of `os.path.isdir`. -/
def isDirFS (fs : FS) (p : Str) : Bool := fs.dirs.contains p

/-- Model of `os.path.isfile`. -/
def isFileFS (fs : FS) (p : Str) : Bool := (fs.files.lookup p).isSome

/-- Name of `p` as a direct child of directory `d`, if it is one. -/
def childName (d p : Str) : Option Str :=
  let pref := if d.getLast? = some '/' then d else d ++ ['/']
  if isPre pref p then
    let n := p.drop pref.length
    if n ≠ [] ∧ '/' ∉ n then some n else none
  else none

/-- Model of `os.listdir`: the names of the entries of `d` recorded in the
state, directories first, in recording order (the order of `os.listdir` is
unspecified by the OS). -/
def listdirNames (fs : FS) (d : Str) : List Str :=
  ((fs.dirs ++ fs.files.map (·.1)).filterMap (childName d)).eraseDups

/-- Python's `str(bool)`. -/
def pyBool (b : Bool) : Str := if b then ("True").toList else ("False").toList

/-- Source `get_file_stats`: the ordered key/value rows of the stats
dictionary, or `none` when `os.stat` raises.  The time stamps are carried as
the strings CPython renders for the stat floats; `oct(st_mode)[-3:]` is the
last three characters of the recorded octal mode string. -/
def get_file_stats (fs : FS) (p : Str) : Option (List (Str × Str)) :=
  (fs.statInfo p).map (fun st =>
    [(("size").toList, format_size st.size),
     (("created").toList, st.created),
     (("modified").toList, st.modified),
     (("accessed").toList, st.accessed),
     (("isDirectory").toList, pyBool (isDirFS fs p)),
     (("isFile").toList, pyBool (isFileFS fs p)),
     (("permissions").toList, st.mode.drop (st.mode.length - 3))])

/-! ### `fnmatch.fnmatch` (POSIX case-sensitive form) -/

/-- Tokens of a compiled glob pattern. -/
inductive GlobTok where
  | lit (c : Char)
  | anyChar
  | star
  | cls (neg : Bool) (items : List (Char × Char))
deriving DecidableEq, Repr

/-- Parse the items of a `[...]` class up to the closing bracket; `none` when
the bracket never closes (then `[` is a literal, as in `fnmatch.translate`).
Ranges `a-b` are recognised unless the `-` directly precedes the closing
bracket, in which case it is a literal. -/
def parseClassItems : Str → Option (List (Char × Char) × Str)
  | [] => none
  | ']' :: rest => some ([], rest)
  | a :: '-' :: b :: rest =>
    if b = ']' then some ([(a, a), ('-', '-')], rest)
    else (parseClassItems rest).map (fun pr => ((a, b) :: pr.1, pr.2))
  | a :: rest => (parseClassItems rest).map (fun pr => ((a, a) :: pr.1, pr.2))

/-- Head of a glob class after `[`: an optional `!` negation, with a `]`
directly after `[` or `[!` taken literally. -/
def classOf (ps : Str) : Option (Bool × List (Char × Char) × Str) :=
  match ps with
  | '!' :: ']' :: rest2 =>
    (parseClassItems rest2).map (fun pr => (true, (']', ']') :: pr.1, pr.2))
  | '!' :: rest => (parseClassItems rest).map (fun pr => (true, pr.1, pr.2))
  | ']' :: rest2 =>
    (parseClassItems rest2).map (fun pr => (false, (']', ']') :: pr.1, pr.2))
  | rest => (parseClassItems rest).map (fun pr => (false, pr.1, pr.2))

/-- Compile a glob pattern to tokens.  Each step consumes at least one
pattern character, so the fuel supplied by `compileGlob` is never
exhausted. -/
def compileGlobAux : Nat → Str → List GlobTok
  | 0, _ => []
  | _ + 1, [] => []
  | fuel + 1, '*' :: ps => .star :: compileGlobAux fuel ps
  | fuel + 1, '?' :: ps => .anyChar :: compileGlobAux fuel ps
  | fuel + 1, '[' :: ps =>
    match classOf ps with
    | none => .lit '[' :: compileGlobAux fuel ps
    | some (neg, items, rest) => .cls neg items :: compileGlobAux fuel rest
  | fuel + 1, c :: ps => .lit c :: compileGlobAux fuel ps

/-- Compile a glob pattern. -/
def compileGlob (pat : Str) : List GlobTok := compileGlobAux (pat.length + 1) pat

/-- Membership of a character in a glob class. -/
def matchClass (neg : Bool) (items : List (Char × Char)) (c : Char) : Bool :=
  let inside := items.any (fun r => Nat.ble r.1.toNat c.toNat && Nat.ble c.toNat r.2.toNat)
  if neg then !inside else inside

/-- Full match of a token list against a name: `*` spans any characters
(`re.DOTALL`), `?` any single character.  Every recursive call shrinks the
combined length of pattern and name, so the fuel given by `globTokMatch` is
never exhausted. -/
def globTokMatchAux : Nat → List GlobTok → Str → Bool
  | 0, _, _ => false
  | _ + 1, [], [] => true
  | _ + 1, [], _ :: _ => false
  | fuel + 1, .star :: ts, s =>
    globTokMatchAux fuel ts s ||
      (match s with
       | [] => false
       | _ :: rest => globTokMatchAux fuel (.star :: ts) rest)
  | fuel + 1, .anyChar :: ts, s =>
    match s with
    | [] => false
    | _ :: rest => globTokMatchAux fuel ts rest
  | fuel + 1, .cls neg items :: ts, s =>
    match s with
    | [] => false
    | c :: rest => matchClass neg items c && globTokMatchAux fuel ts rest
  | fuel + 1, .lit p :: ts, s =>
    match s with
    | [] => false
    | c :: rest => (c = p) && globTokMatchAux fuel ts rest

/-- Full glob-token match. -/
def globTokMatch (ts : List GlobTok) (s : Str) : Bool :=
  globTokMatchAux (ts.length + s.length + 1) ts s

/-- `fnmatch.fnmatch(name, pat)`: `os.path.normcase` is the identity on
POSIX, so this is a case-sensitive full match. -/
def fnmatchB (name pat : Str) : Bool := globTokMatch (compileGlob pat) name

/-! ### `os.walk`-based search and the directory tree -/

/-- Recursive model of the `os.walk` loop in the module-level `search_files`
helper: in each directory, excluded subdirectory names are pruned from the
descent, and file names matching the pattern are collected unless their full
path matches an exclude pattern.  The fuel bounds the recursion depth;
`search_files_helper` passes more than the longest recorded path, which the
strictly lengthening walk paths can never exceed. -/
def searchWalk (fs : FS) (pattern : Str) (excludes : List Str) :
    Nat → Str → List Str
  | 0, _ => []
  | fuel + 1, root =>
    let names := listdirNames fs root
    let dirNames := (names.filter (fun n => isDirFS fs (joinPath root n))).filter
      (fun d => !(excludes.any (fun pat => fnmatchB d pat)))
    let fileNames := names.filter (fun n => !(isDirFS fs (joinPath root n)))
    let fileMatches := (fileNames.filter (fun f => fnmatchB f pattern)).filterMap
      (fun f =>
        let full := joinPath root f
        if excludes.any (fun pat => fnmatchB full pat) then none else some full)
    fileMatches ++
      dirNames.flatMap (fun d => searchWalk fs pattern excludes fuel (joinPath root d))

/-- Upper bound on the length of any recorded path, used to size traversal
fuel. -/
def maxPathLen (fs : FS) : Nat :=
  ((fs.dirs ++ fs.files.map (·.1)).map List.length).foldr Nat.max 0

/-- The module-level `search_files` helper of the source.  Note that the
later `@mcp.tool()` definition of the same name rebinds the module-level
name, so this helper is unreachable from the tool surface; it is modelled for
completeness. -/
def search_files_helper (fs : FS) (directory pattern : Str)
    (exclude_patterns : Option (List Str)) : List Str :=
  searchWalk fs pattern (exclude_patterns.getD []) (maxPathLen fs + 2) directory

/-- A node of `build_directory_tree`'s nested structure. -/
inductive TreeEntry where
  | file (name : Str)
  | dir (name : Str) (children : List TreeEntry)
deriving Repr

/-- Source `build_directory_tree`: sorted entries, exclusion by `fnmatch` on
the entry name, recursion into subdirectories.  The `PermissionError` branch
is not modelled (the state carries no permission bits), and the fuel bounds
the recursion depth as in `searchWalk`. -/
def build_directory_tree (fs : FS) : Nat → Str → List Str → List TreeEntry
  | 0, _, _ => []
  | fuel + 1, directory, excludes =>
    let entries := stableSort strLE (listdirNames fs directory)
    (entries.filter (fun e => !(excludes.any (fun pat => fnmatchB e pat)))).map
      (fun entry =>
        let entryPath := joinPath directory entry
        if isDirFS fs entryPath then
          .dir entry (build_directory_tree fs fuel entryPath excludes)
        else .file entry)

/-! ### `json.dumps(tree, indent=2)` for the tree structure -/

/-- Opening brace character, kept symbolic. -/
def jsonLB : Char := Char.ofNat 123

/-- Closing brace character, kept symbolic. -/
def jsonRB : Char := Char.ofNat 125

/-- Lowercase hexadecimal digit. -/
def hexDigit (n : Nat) : Char :=
  if n < 10 then Char.ofNat (48 + n) else Char.ofNat (87 + n)

/-- Four lowercase hex digits. -/
def hex4 (n : Nat) : Str :=
  [hexDigit (n / 4096 % 16), hexDigit (n / 256 % 16), hexDigit (n / 16 % 16),
   hexDigit (n % 16)]

/-- JSON escaping of one character with `ensure_ascii=True`, as
`json.dumps` performs it (non-ASCII code points become `\uXXXX`, with
surrogate pairs beyond the basic plane). -/
def jsonEscapeChar (c : Char) : Str :=
  if c = '"' then ['\\', '"']
  else if c = '\\' then ['\\', '\\']
  else if c = '\n' then ['\\', 'n']
  else if c = '\t' then ['\\', 't']
  else if c = '\r' then ['\\', 'r']
  else if c.toNat = 8 then ['\\', 'b']
  else if c.toNat = 12 then ['\\', 'f']
  else if c.toNat < 32 ∨ c.toNat > 126 then
    if c.toNat < 65536 then '\\' :: 'u' :: hex4 c.toNat
    else
      let v := c.toNat - 65536
      ('\\' :: 'u' :: hex4 (55296 + v / 1024)) ++ '\\' :: 'u' :: hex4 (56320 + v % 1024)
  else [c]

/-- A JSON string literal. -/
def jsonStr (s : Str) : Str := '"' :: (s.flatMap jsonEscapeChar ++ ['"'])

/-- Indentation. -/
def spaces (n : Nat) : Str := List.replicate n ' '

mutual

/-- Rendering of one tree node as `json.dumps(..., indent=2)` lays it out,
with the node's opening brace at the element position and keys two columns
deeper. -/
def renderEntry : Nat → TreeEntry → Str
  | lvl, .file name =>
    jsonLB :: '\n' :: (spaces (lvl + 2) ++ ("\"name\": ").toList ++ jsonStr name ++
      (",\n").toList ++ spaces (lvl + 2) ++ ("\"type\": \"file\"\n").toList ++
      spaces lvl ++ [jsonRB])
  | lvl, .dir name children =>
    jsonLB :: '\n' :: (spaces (lvl + 2) ++ ("\"name\": ").toList ++ jsonStr name ++
      (",\n").toList ++ spaces (lvl + 2) ++ ("\"type\": \"directory\",\n").toList ++
      spaces (lvl + 2) ++ ("\"children\": ").toList ++
      (match children with
       | [] => ('[' :: [']'])
       | e :: es =>
         '[' :: '\n' :: (renderItems (lvl + 4) (e :: es) ++ '\n' :: spaces (lvl + 2) ++ [']'])) ++
      '\n' :: spaces lvl ++ [jsonRB])

/-- Comma-and-newline separated, indented sequence of array items. -/
def renderItems : Nat → List TreeEntry → Str
  | _, [] => []
  | lvl, [e] => spaces lvl ++ renderEntry lvl e
  | lvl, e :: e2 :: es =>
    spaces lvl ++ renderEntry lvl e ++ (",\n").toList ++ renderItems lvl (e2 :: es)

end

/-- `json.dumps(tree_data, indent=2)` for the whole tree list. -/
def renderTreeJson (l : List TreeEntry) : Str :=
  match l with
  | [] => ('[' :: [']'])
  | e :: es => '[' :: '\n' :: (renderItems 2 (e :: es) ++ '\n' :: [']'])

/-! ### The `@mcp.tool()` surface

Each tool is a function from the server state (the module-global
`allowed_directories` plus the operating-system state) to a new state and a
result; a raised exception is an `Err` result with the state unchanged up to
the mutations performed before the raise (each tool validates before touching
the filesystem, as in the source). -/

/-- The module state: the global `allowed_directories` and the surrounding
operating system. -/
structure ServerState where
  allowed : List Str
  fs : FS

/-- Source `set_allowed_directories`, the only writer of the global
allow-list; it is called from `main` during startup and by no tool. -/
def set_allowed_directories (s : ServerState) (directories : List Str) : ServerState :=
  { s with allowed := directories }

/-- Python truthiness of an `Optional[int]` argument (used by
`if head and tail:` and `if tail:` / `elif head:`). -/
def truthy : Option Int → Bool
  | none => false
  | some n => n != 0

/-- Python's `l[-num:]` slice with an arbitrary (possibly negative)
`num`. -/
def pySliceLast (l : List Str) (num : Int) : List Str :=
  let start : Int := -num
  let len : Int := l.length
  let idx : Int := if start < 0 then max 0 (len + start) else min len start
  l.drop idx.toNat

/-- Source `tail_file` on a file's content: `''.join(f.readlines()[-n:])`. -/
def tail_file_content (content : Str) (num : Int) : Str :=
  (pySliceLast (fileLines content) num).flatten

/-- Source `head_file` on a file's content: the first `n` lines, joined. -/
def head_file_content (content : Str) (num : Int) : Str :=
  ((fileLines content).take num.toNat).flatten

/-- Tool `read_text_file`: reject `head` and `tail` together, validate, then
return the tail, head, or whole content. -/
def read_text_file (s : ServerState) (path : Str) (tl hd : Option Int) :
    ServerState × Except Err Str :=
  if truthy hd && truthy tl then (s, .error .headTailConflict)
  else
    match validate_path s.fs s.allowed path with
    | .error e => (s, .error e)
    | .ok vp =>
      match read_file_content s.fs vp with
      | none => (s, .error (.ioError vp))
      | some c =>
        if truthy tl then (s, .ok (tail_file_content c (tl.getD 0)))
        else if truthy hd then (s, .ok (head_file_content c (hd.getD 0)))
        else (s, .ok c)

/-- Tool `read_media_file`: validate, guess the MIME type, and format the
base64 summary string. -/
def read_media_file (s : ServerState) (path : Str) : ServerState × Except Err Str :=
  match validate_path s.fs s.allowed path with
  | .error e => (s, .error e)
  | .ok vp =>
    let mime := (guessMime vp).getD (("application/octet-stream").toList)
    match read_file_content s.fs vp with
    | none => (s, .error (.ioError vp))
    | some c =>
      let data := read_file_as_base64 c
      (s, .ok (("MIME Type: ").toList ++ mime ++
        ("\n\nBase64 Data (first 100 chars):\n").toList ++ data.take 100 ++
        ("...\n\nFull length: ").toList ++ natToStr data.length ++
        (" characters").toList))

/-- Tool `write_file`: validate, then write (creating parent directories). -/
def write_file (s : ServerState) (path content : Str) : ServerState × Except Err Str :=
  match validate_path s.fs s.allowed path with
  | .error e => (s, .error e)
  | .ok vp =>
    ({ s with fs := write_file_content s.fs vp content },
     .ok (("Successfully wrote to ").toList ++ path))

/-- Tool `edit_file`: validate, then run `apply_file_edits`. -/
def edit_file (s : ServerState) (path : Str) (edits : List EditOp) (dry_run : Bool) :
    ServerState × Except Err Str :=
  match validate_path s.fs s.allowed path with
  | .error e => (s, .error e)
  | .ok vp =>
    let r := apply_file_edits s.fs vp edits dry_run
    ({ s with fs := r.1 }, r.2)

/-- Tool `create_directory`: validate, then `os.makedirs(..., exist_ok=True)`
(which still raises `FileExistsError` when the path exists as a regular
file). -/
def create_directory (s : ServerState) (path : Str) : ServerState × Except Err Str :=
  match validate_path s.fs s.allowed path with
  | .error e => (s, .error e)
  | .ok vp =>
    if isFileFS s.fs vp then (s, .error (.ioError vp))
    else
      ({ s with fs := makedirsModel s.fs vp },
       .ok (("Successfully created directory ").toList ++ path))

/-- Tool `list_directory`: validate, list, sort, and tag each entry. -/
def list_directory (s : ServerState) (path : Str) : ServerState × Except Err Str :=
  match validate_path s.fs s.allowed path with
  | .error e => (s, .error e)
  | .ok vp =>
    if isDirFS s.fs vp then
      let entries := stableSort strLE (listdirNames s.fs vp)
      let formatted := entries.map (fun entry =>
        let entryPath := joinPath vp entry
        (if isDirFS s.fs entryPath then ("[DIR] ").toList else ("[FILE] ").toList) ++ entry)
      (s, .ok (joinWith '\n' formatted))
    else (s, .error (.ioError vp))

/-- One row of `list_directory_with_sizes`. -/
structure DirEntry where
  name : Str
  is_directory : Bool
  size : Nat
deriving DecidableEq, Repr

/-- Right padding (`str.ljust`). -/
def padRight (s : Str) (n : Nat) : Str := s ++ List.replicate (n - s.length) ' '

/-- Left padding (`str.rjust`). -/
def padLeft (s : Str) (n : Nat) : Str := List.replicate (n - s.length) ' ' ++ s

/-- Tool `list_directory_with_sizes`: stat every entry (a failing stat keeps
the entry with size 0), sort by name or descending size (stably, as Python's
`sort(..., reverse=True)`), and format rows plus the summary. -/
def list_directory_with_sizes (s : ServerState) (path sort_by : Str) :
    ServerState × Except Err Str :=
  match validate_path s.fs s.allowed path with
  | .error e => (s, .error e)
  | .ok vp =>
    if isDirFS s.fs vp then
      let entries := listdirNames s.fs vp
      let detailed := entries.map (fun entry =>
        let entryPath := joinPath vp entry
        match s.fs.statInfo entryPath with
        | some st => DirEntry.mk entry (isDirFS s.fs entryPath) st.size
        | none => DirEntry.mk entry (isDirFS s.fs entryPath) 0)
      let sortedE :=
        if sort_by = ("size").toList then
          stableSort (fun a b => Nat.ble b.size a.size) detailed
        else stableSort (fun a b => strLE a.name b.name) detailed
      let formatted := sortedE.map (fun e =>
        (if e.is_directory then ("[DIR]").toList else ("[FILE]").toList) ++
          ' ' :: padRight e.name 30 ++
          ' ' :: (if e.is_directory then [] else padLeft (format_size e.size) 10))
      let total_files := (sortedE.filter (fun e => !e.is_directory)).length
      let total_dirs := (sortedE.filter (fun e => e.is_directory)).length
      let total_size := ((sortedE.filter (fun e => !e.is_directory)).map (·.size)).sum
      (s, .ok (joinWith '\n' (formatted ++
        [[],
         ("Total: ").toList ++ natToStr total_files ++ (" files, ").toList ++
           natToStr total_dirs ++ (" directories").toList,
         ("Combined size: ").toList ++ format_size total_size])))
    else (s, .error (.ioError vp))

/-- Tool `directory_tree`: validate, build the tree, and render it as
`json.dumps(..., indent=2)`. -/
def directory_tree (s : ServerState) (path : Str) (excl : Option (List Str)) :
    ServerState × Except Err Str :=
  match validate_path s.fs s.allowed path with
  | .error e => (s, .error e)
  | .ok vp =>
    let excludes := excl.getD []
    if isDirFS s.fs vp then
      (s, .ok (renderTreeJson (build_directory_tree s.fs (maxPathLen s.fs + 2) vp excludes)))
    else (s, .error (.ioError vp))

/-- Rewriting of one recorded path under `os.rename` of a directory or
file. -/
def renamePrefix (src dst p : Str) : Str :=
  if p = src then dst
  else if isPre (src ++ ['/']) p then dst ++ p.drop src.length
  else p

/-- Tool `move_file`: validate both arguments (source first), then
`os.rename`, which moves a file or a whole directory subtree and raises when
the source does not exist.  POSIX overwrite edge cases of `rename` are not
modelled. -/
def move_file (s : ServerState) (source destination : Str) :
    ServerState × Except Err Str :=
  match validate_path s.fs s.allowed source with
  | .error e => (s, .error e)
  | .ok vsrc =>
    match validate_path s.fs s.allowed destination with
    | .error e => (s, .error e)
    | .ok vdst =>
      if isFileFS s.fs vsrc || isDirFS s.fs vsrc then
        let fs := s.fs
        let fs2 := { fs with
          files := fs.files.map (fun kv => (renamePrefix vsrc vdst kv.1, kv.2)),
          dirs := fs.dirs.map (renamePrefix vsrc vdst) }
        ({ s with fs := fs2 },
         .ok (("Successfully moved ").toList ++ source ++ (" to ").toList ++ destination))
      else (s, .error (.ioError vsrc))

/-- Tool `search_files`.  The `@mcp.tool()` decorator of the Python SDK
returns the decorated function, so this definition rebinds the module-level
name `search_files`; the call `search_files(valid_path, pattern,
exclude_patterns)` in its own body therefore reaches this tool again, not the
helper, and the tool recurses until Python's recursion limit raises
`RecursionError`.  The fuel models that limit. -/
def search_files (s : ServerState) :
    Nat → Str → Str → Option (List Str) → ServerState × Except Err Str
  | 0, _, _, _ => (s, .error .recursionError)
  | fuel + 1, path, pattern, excl =>
    match validate_path s.fs s.allowed path with
    | .error e => (s, .error e)
    | .ok vp => search_files s fuel vp pattern (some (excl.getD []))

/-- Tool `get_file_info`: validate, stat, and format the rows. -/
def get_file_info (s : ServerState) (path : Str) : ServerState × Except Err Str :=
  match validate_path s.fs s.allowed path with
  | .error e => (s, .error e)
  | .ok vp =>
    match get_file_stats s.fs vp with
    | none => (s, .error (.ioError vp))
    | some info =>
      (s, .ok (joinWith '\n' (info.map (fun kv => kv.1 ++ (": ").toList ++ kv.2))))

/-- Tool `list_allowed_directories`: render the allow-list without
validating. -/
def list_allowed_directories (s : ServerState) : ServerState × Except Err Str :=
  if s.allowed = [] then (s, .ok (("No allowed directories configured").toList))
  else (s, .ok (("Allowed directories:\n").toList ++ joinWith '\n' s.allowed))

/-- One invocation of the public tool surface. -/
inductive ToolOp where
  | readTextFileOp (path : Str) (tl hd : Option Int)
  | readMediaFileOp (path : Str)
  | writeFileOp (path content : Str)
  | editFileOp (path : Str) (edits : List EditOp) (dryRun : Bool)
  | createDirectoryOp (path : Str)
  | listDirectoryOp (path : Str)
  | listDirectoryWithSizesOp (path sortBy : Str)
  | directoryTreeOp (path : Str) (excl : Option (List Str))
  | moveFileOp (source destination : Str)
  | searchFilesOp (path pattern : Str) (excl : Option (List Str))
  | getFileInfoOp (path : Str)
  | listAllowedDirectoriesOp

/-- Dispatch of one tool call.  The fuel 1000 given to `search_files` is
CPython's default recursion limit; its exact value is irrelevant to every
claim. -/
def runTool (s : ServerState) : ToolOp → ServerState × Except Err Str
  | .readTextFileOp path tl hd => read_text_file s path tl hd
  | .readMediaFileOp path => read_media_file s path
  | .writeFileOp path content => write_file s path content
  | .editFileOp path edits dryRun => edit_file s path edits dryRun
  | .createDirectoryOp path => create_directory s path
  | .listDirectoryOp path => list_directory s path
  | .listDirectoryWithSizesOp path sortBy => list_directory_with_sizes s path sortBy
  | .directoryTreeOp path excl => directory_tree s path excl
  | .moveFileOp source destination => move_file s source destination
  | .searchFilesOp path pattern excl => search_files s 1000 path pattern excl
  | .getFileInfoOp path => get_file_info s path
  | .listAllowedDirectoriesOp => list_allowed_directories s

/-! ### Properties of the path normalization pipeline -/

theorem isPre_len (pat : Str) : ∀ s, isPre pat s = true → pat.length ≤ s.length := by
  induction pat with
  | nil => intro s _; simp
  | cons a as ih =>
    intro s h
    cases s with
    | nil => simp [isPre] at h
    | cons b bs =>
      simp only [isPre, Bool.and_eq_true] at h
      simpa using Nat.succ_le_succ (ih bs h.2)

theorem isPre_self_append (x y : Str) : isPre x (x ++ y) = true := by
  induction x with
  | nil => rfl
  | cons a as ih => simp [isPre, ih]

theorem isAbsB_true_iff (p : Str) : isAbsB p = true ↔ ∃ t, p = '/' :: t := by
  cases p with
  | nil => simp [isAbsB, isPre]
  | cons c t =>
    simp only [isAbsB, isPre, Bool.and_eq_true, decide_eq_true_eq]
    constructor
    · rintro ⟨rfl, _⟩
      exact ⟨t, rfl⟩
    · rintro ⟨t2, h⟩
      cases h
      exact ⟨rfl, trivial⟩

theorem isAbsB_append (p y : Str) (hp : isAbsB p = true) :
    isAbsB (p ++ y) = true := by
  obtain ⟨t, rfl⟩ := (isAbsB_true_iff p).mp hp
  exact (isAbsB_true_iff _).mpr ⟨t ++ y, by simp⟩

/-- Components that survive `normpath` on an absolute path: non-empty, not
`.` or `..`, and free of separators. -/
def CleanComp (c : Str) : Prop :=
  c ≠ [] ∧ c ≠ ['.'] ∧ c ≠ ['.', '.'] ∧ '/' ∉ c

theorem normStep_clean (i : Nat) (hi : 1 ≤ i) (acc : List Str) (x : Str)
    (hacc : ∀ c ∈ acc, CleanComp c) (hx : '/' ∉ x) :
    ∀ c ∈ normStep i acc x, CleanComp c := by
  intro c hc
  unfold normStep at hc
  by_cases h1 : x = [] ∨ x = ['.']
  · rw [if_pos h1] at hc
    exact hacc c hc
  · rw [if_neg h1] at hc
    by_cases h2 : x ≠ ['.', '.'] ∨ (i = 0 ∧ acc = []) ∨ acc.getLast? = some ['.', '.']
    · rw [if_pos h2] at hc
      rcases List.mem_append.mp hc with h | h
      · exact hacc c h
      · have hcx : c = x := by simpa using h
        subst hcx
        push_neg at h1
        refine ⟨h1.1, h1.2, ?_, hx⟩
        rcases h2 with h2 | h2 | h2
        · exact h2
        · exact absurd h2.1 (by omega)
        · obtain ⟨hne, heq⟩ := List.mem_getLast?_eq_getLast (Option.mem_def.mpr h2)
          exact ((hacc _ (by rw [heq]; exact List.getLast_mem hne)).2.2.1 rfl).elim
    · rw [if_neg h2] at hc
      by_cases h3 : acc ≠ []
      · rw [if_pos h3] at hc
        exact hacc c ((List.dropLast_sublist acc).subset hc)
      · rw [if_neg h3] at hc
        exact hacc c hc

theorem foldl_normStep_inv (i : Nat) (hi : 1 ≤ i) :
    ∀ (comps acc : List Str), (∀ c ∈ acc, CleanComp c) →
      (∀ x ∈ comps, '/' ∉ x) →
      ∀ c ∈ comps.foldl (normStep i) acc, CleanComp c := by
  intro comps
  induction comps with
  | nil => intro acc hacc _; exact hacc
  | cons x t ih =>
    intro acc hacc hcomps
    simp only [List.foldl_cons]
    exact ih (normStep i acc x)
      (normStep_clean i hi acc x hacc (hcomps x (List.mem_cons_self x t)))
      (fun y hy => hcomps y (List.mem_cons_of_mem x hy))

theorem foldl_normStep_clean (i : Nat) :
    ∀ (comps acc : List Str), (∀ c ∈ comps, CleanComp c) →
      comps.foldl (normStep i) acc = acc ++ comps := by
  intro comps
  induction comps with
  | nil => intro acc _; simp
  | cons x t ih =>
    intro acc hcl
    have hx := hcl x (List.mem_cons_self x t)
    have hstep : normStep i acc x = acc ++ [x] := by
      unfold normStep
      rw [if_neg (not_or.mpr ⟨hx.1, hx.2.1⟩), if_pos (Or.inl hx.2.2.1)]
    simp only [List.foldl_cons, hstep]
    rw [ih (acc ++ [x]) (fun c hc => hcl c (List.mem_cons_of_mem x hc))]
    simp

theorem splitOnChar_replicate_append (k : Nat) (rest : Str) :
    splitOnChar '/' (List.replicate k '/' ++ rest)
      = List.replicate k ([] : Str) ++ splitOnChar '/' rest := by
  induction k with
  | zero => simp
  | succ k ih => simp [List.replicate_succ, splitOnChar, ih]

theorem foldl_normStep_replicate_nil (i k : Nat) (acc : List Str) (rest : List Str) :
    (List.replicate k ([] : Str) ++ rest).foldl (normStep i) acc
      = rest.foldl (normStep i) acc := by
  induction k generalizing acc with
  | zero => simp
  | succ k ih =>
    have hstep : normStep i acc [] = acc := by simp [normStep]
    simp [List.replicate_succ, hstep, ih]

theorem normalize_path_abs_struct (p : Str) (hp : isAbsB p = true) :
    ∃ k l, (k = 1 ∨ k = 2) ∧
      normalize_path p = List.replicate k '/' ++ joinWith '/' l ∧
      ∀ c ∈ l, CleanComp c := by
  have hpe : p ≠ [] := by
    obtain ⟨t, rfl⟩ := (isAbsB_true_iff p).mp hp
    simp
  have hp2 : isPre ['/'] p = true := hp
  have hk1 : 1 ≤ initialSlashes p := by
    unfold initialSlashes
    rw [if_pos hp2]
    split <;> omega
  refine ⟨initialSlashes p, (splitOnChar '/' p).foldl (normStep (initialSlashes p)) [],
    ?_, ?_, ?_⟩
  · unfold initialSlashes
    rw [if_pos hp2]
    split
    · exact Or.inr rfl
    · exact Or.inl rfl
  · have hne : List.replicate (initialSlashes p) '/' ++
        joinWith '/' ((splitOnChar '/' p).foldl (normStep (initialSlashes p)) []) ≠ [] := by
      rcases Nat.exists_eq_add_of_le hk1 with ⟨m, hm⟩
      rw [hm]
      simp [List.replicate_succ]
    simp only [normalize_path, if_neg hpe, if_neg hne]
  · exact foldl_normStep_inv (initialSlashes p) hk1 (splitOnChar '/' p) []
      (by intro c hc; simp at hc) (mem_splitOnChar_no_sep '/' p)

theorem normalize_path_abs (p : Str) (hp : isAbsB p = true) :
    isAbsB (normalize_path p) = true := by
  obtain ⟨k, l, hk, heq, _⟩ := normalize_path_abs_struct p hp
  rw [heq]
  rcases hk with rfl | rfl
  · exact (isAbsB_true_iff _).mpr ⟨joinWith '/' l, by simp [List.replicate_succ]⟩
  · exact (isAbsB_true_iff _).mpr ⟨'/' :: joinWith '/' l, by simp [List.replicate_succ]⟩

theorem normalize_path_canon (k : Nat) (hk : k = 1 ∨ k = 2) :
    ∀ (l : List Str), (∀ c ∈ l, CleanComp c) →
      normalize_path (List.replicate k '/' ++ joinWith '/' l)
        = List.replicate k '/' ++ joinWith '/' l := by
  intro l hcl
  rcases l with _ | ⟨c0, l2⟩
  · rcases hk with rfl | rfl <;> decide
  · have hc0 := hcl c0 (List.mem_cons_self c0 l2)
    obtain ⟨d, t, rfl⟩ : ∃ d t, c0 = d :: t := by
      cases c0 with
      | nil => exact absurd rfl hc0.1
      | cons d t => exact ⟨d, t, rfl⟩
    have hd : ('/' : Char) ≠ d := by
      intro h
      exact hc0.2.2.2 (by rw [← h]; exact List.mem_cons_self _ _)
    obtain ⟨w, hw⟩ : ∃ w, joinWith '/' ((d :: t) :: l2) = d :: w := by
      cases l2 with
      | nil => exact ⟨t, rfl⟩
      | cons y t2 => exact ⟨t ++ '/' :: joinWith '/' (y :: t2), rfl⟩
    have hVne : List.replicate k '/' ++ joinWith '/' ((d :: t) :: l2) ≠ [] := by
      rcases hk with rfl | rfl <;> simp [List.replicate_succ]
    have hinit : initialSlashes (List.replicate k '/' ++ joinWith '/' ((d :: t) :: l2)) = k := by
      rcases hk with rfl | rfl
      · show initialSlashes (List.replicate 1 '/' ++ _) = 1
        rw [hw]
        unfold initialSlashes
        rw [if_pos (by simp [List.replicate_succ, isPre])]
        rw [if_neg ?hneg]
        case hneg =>
          intro hand
          have : isPre ['/', '/'] ('/' :: d :: w) = true := by
            simpa [List.replicate_succ] using hand.1
          simp [isPre] at this
          exact hd this
      · show initialSlashes (List.replicate 2 '/' ++ _) = 2
        rw [hw]
        unfold initialSlashes
        rw [if_pos (by simp [List.replicate_succ, isPre])]
        rw [if_pos ?hpos]
        case hpos =>
          constructor
          · simp [List.replicate_succ, isPre]
          · intro h3
            have : isPre ['/', '/', '/'] ('/' :: '/' :: d :: w) = true := by
              simpa [List.replicate_succ] using h3
            simp [isPre] at this
            exact hd this
    have hsplit : splitOnChar '/' (List.replicate k '/' ++ joinWith '/' ((d :: t) :: l2))
        = List.replicate k ([] : Str) ++ ((d :: t) :: l2) := by
      rw [splitOnChar_replicate_append,
        splitOnChar_joinWith '/' ((d :: t) :: l2) (by simp)
          (fun c hc => (hcl c hc).2.2.2)]
    have hfold : (splitOnChar '/' (List.replicate k '/' ++ joinWith '/' ((d :: t) :: l2))).foldl
        (normStep k) [] = (d :: t) :: l2 := by
      rw [hsplit, foldl_normStep_replicate_nil, foldl_normStep_clean k _ [] hcl]
      simp
    simp only [normalize_path, if_neg hVne, hinit, hfold, if_neg hVne]

theorem normalize_path_idem_abs (p : Str) (hp : isAbsB p = true) :
    normalize_path (normalize_path p) = normalize_path p := by
  obtain ⟨k, l, hk, heq, hcl⟩ := normalize_path_abs_struct p hp
  rw [heq]
  exact normalize_path_canon k hk l hcl

theorem expand_home_abs (home p : Str) (hp : isAbsB p = true) :
    expand_home home p = p := by
  obtain ⟨t, rfl⟩ := (isAbsB_true_iff p).mp hp
  simp [expand_home]

theorem abspath_of_abs (cwd p : Str) (hp : isAbsB p = true) :
    abspath cwd p = normalize_path p := by
  simp [abspath, hp]

theorem abspath_abs (cwd p : Str) (hc : isAbsB cwd = true) :
    isAbsB (abspath cwd p) = true := by
  by_cases hp : isAbsB p = true
  · rw [abspath_of_abs cwd p hp]
    exact normalize_path_abs p hp
  · have hp2 : isAbsB p = false := by
      revert hp
      cases isAbsB p <;> simp
    have h1 : abspath cwd p = normalize_path (joinPath cwd p) := by
      simp [abspath, hp2]
    rw [h1]
    apply normalize_path_abs
    unfold joinPath
    rw [if_neg (by simp [hp2])]
    obtain ⟨t, rfl⟩ := (isAbsB_true_iff cwd).mp hc
    rw [if_neg (by simp)]
    by_cases hl : ('/' :: t : Str).getLast? = some '/'
    · rw [if_pos hl]
      exact isAbsB_append _ _ hc
    · rw [if_neg hl]
      exact (isAbsB_true_iff _).mpr ⟨t ++ '/' :: p, by simp⟩

/-! ### Concrete operating-system states for the validator claims -/

/-- OS state whose `realpath` is the identity on already-resolved paths (a
machine without symlinks). -/
def fsIdRealpath : FS where
  home := ("/home/u").toList
  cwd := ("/").toList
  realpath := fun a => some a
  files := []
  dirs := [("/data").toList]
  statInfo := fun _ => none

/-- OS state with no symlinks, resolution by `modelRealpath` over the empty
link table; the directory `/r/sub` exists inside the root `/r`, and no file
exists. -/
def fsNoLinks : FS where
  home := ("/home/u").toList
  cwd := ("/").toList
  realpath := fun a => some (modelRealpath [] a)
  files := []
  dirs := [("/r").toList, ("/r/sub").toList]
  statInfo := fun _ => none

/-- OS state in which `/r/link` is a symlink, recorded inside the allowed
root `/r`, whose resolved target is the outside directory `/out`; resolution
follows CPython's `os.path.realpath` via `modelRealpath`. -/
def fsSymlink : FS where
  home := ("/home/u").toList
  cwd := ("/").toList
  realpath := fun a => some (modelRealpath [(("/r/link").toList, ("/out").toList)] a)
  files := []
  dirs := [("/r").toList, ("/out").toList]
  statInfo := fun _ => none

/-- OS state whose `realpath` always raises, exercising the `except` fallback
of `validate_path`. -/
def fsRaises : FS where
  home := ("/home/u").toList
  cwd := ("/").toList
  realpath := fun _ => none
  files := []
  dirs := []
  statInfo := fun _ => none

/-- C1: for every configured root list and raw path, `validate_path` succeeds
exactly when some stored root string is a plain string prefix (`isPre`, not
component-aware) of the expanded, resolved, normalized form of the path,
returning exactly that normalized string, and otherwise fails with
`accessDenied` carrying the original input. -/
theorem c1_validate_containment :
    ∀ (fs : FS) (roots : List Str) (p : Str),
      (validate_path fs roots p = .ok (normalizedOf fs p) ↔
        ∃ d ∈ roots, isPre d (normalizedOf fs p) = true) ∧
      (validate_path fs roots p = .error (.accessDenied p) ↔
        ¬ ∃ d ∈ roots, isPre d (normalizedOf fs p) = true) ∧
      (∀ res, validate_path fs roots p = .ok res → res = normalizedOf fs p) := by
  intro fs roots p
  refine ⟨?_, ?_, ?_⟩
  · rw [validate_path_eq, checkRoots_ok_iff]
    simp
  · rw [validate_path_eq, checkRoots_err_iff]
  · intro res h
    rw [validate_path_eq] at h
    exact ((checkRoots_ok_iff _ _ _ _).mp h).1

/-- Witness for C1 at a concrete state: with the single root `/data`, the
path `/data2/secret` is accepted, because the plain string-prefix test is not
component-aware. -/
theorem c1_validate_containment_witness :
    validate_path fsIdRealpath [("/data").toList] (("/data2/secret").toList)
      = .ok (normalizedOf fsIdRealpath (("/data2/secret").toList)) :=
  ((c1_validate_containment fsIdRealpath [("/data").toList]
    (("/data2/secret").toList)).1).mpr ⟨("/data").toList, by decide, by decide⟩

/-- C10: with an empty AllowedRoots list, `validate_path` fails closed with
`accessDenied` on every input path, over every operating-system state. -/
theorem c10_fail_closed :
    ∀ (fs : FS) (p : Str), validate_path fs [] p = .error (.accessDenied p) :=
  fun _ _ => rfl

/-- C4 counterexample: the parent `/r/link` exists inside the allowed root
`/r` (it is a symlink whose target is the directory `/out`), the final
component `new` does not exist, and the absolute unresolved form
`/r/link/new` does begin with the root `/r` — so under the claimed
fall-back-to-unresolved behaviour validation would succeed — yet
`validate_path` resolves the symlink even though the path does not exist and
denies the path. -/
theorem c4_create_flow_counterexample :
    isPre (("/r").toList)
      (normalize_path (abspath fsSymlink.cwd
        (expand_home fsSymlink.home (("/r/link/new").toList)))) = true ∧
    read_file_content fsSymlink (("/r/link/new").toList) = none ∧
    fsSymlink.realpath (("/r/link/new").toList) = some (("/out/new").toList) ∧
    validate_path fsSymlink [("/r").toList] (("/r/link/new").toList)
      = .error (.accessDenied (("/r/link/new").toList)) :=
  ⟨by decide, rfl, by decide, by decide⟩

/-- C4 (amended): `validate_path` falls back to the absolute, unresolved form
only when `os.path.realpath` raises; mere non-existence does not raise —
resolution is existence-blind (the outcome never depends on which files or
directories exist) and resolves symlinks in existing components of
not-yet-existing paths — so a new-file path validates exactly when its
resolved form lies inside a root; in particular a non-existent path whose
parent chain has no symlinks and lies inside an allowed root validates
successfully. -/
theorem c4_validate_fallback_amended :
    (∀ (fs : FS) (roots : List Str) (p : Str),
        fs.realpath (abspath fs.cwd (expand_home fs.home p)) = none →
        validate_path fs roots p
          = checkRoots roots
              (normalize_path (abspath fs.cwd (expand_home fs.home p))) p) ∧
    (∀ (home cwd : Str) (rp : Str → Option Str) (f1 f2 : List (Str × Str))
        (d1 d2 : List Str) (st1 st2 : Str → Option Stat) (roots : List Str) (p : Str),
        validate_path ⟨home, cwd, rp, f1, d1, st1⟩ roots p
          = validate_path ⟨home, cwd, rp, f2, d2, st2⟩ roots p) ∧
    (read_file_content fsNoLinks (("/r/sub/new").toList) = none ∧
      validate_path fsNoLinks [("/r").toList] (("/r/sub/new").toList)
        = .ok (("/r/sub/new").toList)) := by
  refine ⟨?_, ?_, rfl, by decide⟩
  · intro fs roots p h
    rw [validate_path_eq]
    unfold normalizedOf resolvedNorm
    rw [h]
  · intro home cwd rp f1 f2 d1 d2 st1 st2 roots p
    rfl

/-- Witness for the amended C4: a state whose `realpath` raises takes the
documented fallback branch. -/
theorem c4_validate_fallback_witness :
    validate_path fsRaises [("/r").toList] (("/r/x").toList)
      = checkRoots [("/r").toList]
          (normalize_path (abspath fsRaises.cwd
            (expand_home fsRaises.home (("/r/x").toList))))
          (("/r/x").toList) :=
  c4_validate_fallback_amended.1 fsRaises [("/r").toList] (("/r/x").toList) rfl

/-- C8: validation is idempotent.  The operating-system facts used are that
`os.getcwd()` is absolute, that `realpath` of an absolute path is absolute,
and that the resolve-then-normalize pipeline is stable on its own output
(true of `os.path.realpath` on a fixed filesystem state); everything else —
`~`-expansion, `abspath` and `normpath` acting as the identity on the
returned path, and the re-run of the prefix check — is proved. -/
theorem c8_validate_idempotent
    (fs : FS) (roots : List Str) (p V : Str)
    (hcwd : isAbsB fs.cwd = true)
    (hreal : ∀ a r, isAbsB a = true → fs.realpath a = some r → isAbsB r = true)
    (hstab : ∀ a, isAbsB a = true →
      resolvedNorm fs (resolvedNorm fs a) = resolvedNorm fs a)
    (h : validate_path fs roots p = .ok V) :
    validate_path fs roots V = .ok V := by
  rw [validate_path_eq] at h
  obtain ⟨hV, d, hd, hpre⟩ := (checkRoots_ok_iff _ _ _ _).mp h
  set a := abspath fs.cwd (expand_home fs.home p) with ha
  have haAbs : isAbsB a = true := abspath_abs _ _ hcwd
  have hVabs : isAbsB V = true := by
    rw [hV]
    show isAbsB (resolvedNorm fs a) = true
    unfold resolvedNorm
    rcases hr : fs.realpath a with _ | r
    · exact normalize_path_abs a haAbs
    · exact normalize_path_abs r (hreal a r haAbs hr)
  have hVnorm : normalize_path V = V := by
    rw [hV]
    show normalize_path (resolvedNorm fs a) = resolvedNorm fs a
    unfold resolvedNorm
    rcases hr : fs.realpath a with _ | r
    · exact normalize_path_idem_abs a haAbs
    · exact normalize_path_idem_abs r (hreal a r haAbs hr)
  have hstep : normalizedOf fs V = V := by
    unfold normalizedOf
    rw [expand_home_abs _ _ hVabs, abspath_of_abs _ _ hVabs, hVnorm]
    rw [hV]
    show resolvedNorm fs (resolvedNorm fs a) = resolvedNorm fs a
    exact hstab a haAbs
  rw [validate_path_eq, hstep]
  exact (checkRoots_ok_iff _ _ _ _).mpr ⟨rfl, d, hd, by rw [hV]; exact hpre⟩

/-- Witness for C8 at a concrete state: `/data/./x` validates to `/data/x`,
and re-validating `/data/x` returns it unchanged. -/
theorem c8_validate_idempotent_witness :
    validate_path fsIdRealpath [("/data").toList] (("/data/./x").toList)
        = .ok (("/data/x").toList) ∧
    validate_path fsIdRealpath [("/data").toList] (("/data/x").toList)
        = .ok (("/data/x").toList) := by
  have hfirst : validate_path fsIdRealpath [("/data").toList] (("/data/./x").toList)
      = .ok (("/data/x").toList) := by decide
  have hr : ∀ x, resolvedNorm fsIdRealpath x = normalize_path x := fun x => rfl
  refine ⟨hfirst, ?_⟩
  exact c8_validate_idempotent fsIdRealpath [("/data").toList] (("/data/./x").toList)
    (("/data/x").toList) (by decide)
    (fun a r ha h => by cases h; exact ha)
    (fun a ha => by rw [hr, hr]; exact normalize_path_idem_abs a ha)
    hfirst

/-! ### Occurrences of a pattern in a string, and the edit-uniqueness rule -/

/-- Specification-level occurrence predicate: `pat` occurs in `s` at
position `i` (with `i` inside the string, so that an empty pattern has
`s.length + 1` occurrence positions, as Python counts them). -/
def occursAt (s pat : Str) (i : Nat) : Prop :=
  i + pat.length ≤ s.length ∧ isPre pat (s.drop i) = true

instance (s pat : Str) (i : Nat) : Decidable (occursAt s pat i) := by
  unfold occursAt
  infer_instance

/-- Two occurrences at non-overlapping positions. -/
def TwoNO (s pat : Str) : Prop :=
  ∃ i j, i < j ∧ i + pat.length ≤ j ∧ occursAt s pat i ∧ occursAt s pat j

theorem occursAt_cons_succ (c : Char) (rest pat : Str) (j : Nat) :
    occursAt (c :: rest) pat (j + 1) ↔ occursAt rest pat j := by
  simp only [occursAt, List.drop_succ_cons, List.length_cons]
  constructor <;> (rintro ⟨h1, h2⟩; exact ⟨by omega, h2⟩)

theorem containsSub_iff (pat : Str) :
    ∀ s, containsSub s pat = true ↔ ∃ i, occursAt s pat i := by
  intro s
  induction s with
  | nil =>
    constructor
    · intro h
      refine ⟨0, ?_, ?_⟩
      · simpa using isPre_len pat [] (by simpa [containsSub] using h)
      · simpa [containsSub] using h
    · rintro ⟨i, _, hp⟩
      show containsSub [] pat = true
      unfold containsSub
      simpa using hp
  | cons c rest ih =>
    unfold containsSub
    rw [Bool.or_eq_true, ih]
    constructor
    · rintro (h | ⟨i, hi⟩)
      · exact ⟨0, by simpa using isPre_len pat _ h, by simpa using h⟩
      · exact ⟨i + 1, (occursAt_cons_succ c rest pat i).mpr hi⟩
    · rintro ⟨i, hi⟩
      cases i with
      | zero => exact Or.inl (by simpa [occursAt] using hi.2)
      | succ j => exact Or.inr ⟨j, (occursAt_cons_succ c rest pat j).mp hi⟩

theorem countFrom_pos (p : Char) (ps : Str) :
    ∀ s, 1 ≤ countFrom p ps s ↔ containsSub s (p :: ps) = true := by
  intro s
  induction s with
  | nil => simp [countFrom_nil, containsSub, isPre]
  | cons c rest ih =>
    rw [countFrom_cons]
    by_cases h : isPre (p :: ps) (c :: rest) = true
    · simp [containsSub, h]
    · have h2 : isPre (p :: ps) (c :: rest) = false := by
        revert h
        cases isPre (p :: ps) (c :: rest) <;> simp
      simp [containsSub, h2, ih]

theorem occursAt_drop_iff (p : Char) (ps s : Str) (k i : Nat) :
    occursAt (s.drop k) (p :: ps) i ↔ occursAt s (p :: ps) (i + k) := by
  have hd : (s.drop k).drop i = s.drop (i + k) := by
    rw [List.drop_drop]
    congr 1
    omega
  simp only [occursAt, List.length_drop, List.length_cons, hd]
  constructor <;> (rintro ⟨h1, h2⟩; exact ⟨by omega, h2⟩)

theorem TwoNO_nil (p : Char) (ps : Str) : ¬ TwoNO [] (p :: ps) := by
  rintro ⟨i, j, _, _, _, hj⟩
  have := hj.1
  simp [List.length_cons] at this

theorem countFrom_two_iff (p : Char) (ps : Str) :
    ∀ (n : Nat) (s : Str), s.length ≤ n →
      (2 ≤ countFrom p ps s ↔ TwoNO s (p :: ps)) := by
  intro n
  induction n with
  | zero =>
    intro s hs
    have hnil : s = [] := List.eq_nil_of_length_eq_zero (by omega)
    subst hnil
    constructor
    · intro h
      rw [countFrom_nil] at h
      omega
    · intro h
      exact absurd h (TwoNO_nil p ps)
  | succ n ih =>
    intro s hs
    cases s with
    | nil =>
      constructor
      · intro h
        rw [countFrom_nil] at h
        omega
      · intro h
        exact absurd h (TwoNO_nil p ps)
    | cons c rest =>
      by_cases hpre : isPre (p :: ps) (c :: rest) = true
      · have hcf : countFrom p ps (c :: rest)
            = 1 + countFrom p ps (rest.drop ps.length) := by
          rw [countFrom_cons, if_pos hpre]
        have hdrop : rest.drop ps.length = (c :: rest).drop (ps.length + 1) := rfl
        rw [hcf]
        constructor
        · intro h
          have h1 : 1 ≤ countFrom p ps (rest.drop ps.length) := by omega
          obtain ⟨i, hi⟩ :=
            (containsSub_iff (p :: ps) _).mp ((countFrom_pos p ps _).mp h1)
          rw [hdrop] at hi
          have hj := (occursAt_drop_iff p ps (c :: rest) (ps.length + 1) i).mp hi
          refine ⟨0, i + (ps.length + 1), by omega, ?_, ?_, hj⟩
          · simp only [List.length_cons]
            omega
          · exact ⟨by simpa using isPre_len _ _ hpre, by simpa using hpre⟩
        · rintro ⟨i, j, hij, hsep, hi, hj⟩
          have hjge : ps.length + 1 ≤ j := by
            simp only [List.length_cons] at hsep
            omega
          have hocc : occursAt ((c :: rest).drop (ps.length + 1)) (p :: ps)
              (j - (ps.length + 1)) := by
            apply (occursAt_drop_iff p ps (c :: rest) (ps.length + 1) _).mpr
            rw [Nat.sub_add_cancel hjge]
            exact hj
          rw [← hdrop] at hocc
          have h1 : 1 ≤ countFrom p ps (rest.drop ps.length) :=
            (countFrom_pos p ps _).mpr ((containsSub_iff _ _).mpr ⟨_, hocc⟩)
          omega
      · have hpre2 : isPre (p :: ps) (c :: rest) = false := by
          revert hpre
          cases isPre (p :: ps) (c :: rest) <;> simp
        have hcf : countFrom p ps (c :: rest) = countFrom p ps rest := by
          rw [countFrom_cons, if_neg (by simp [hpre2])]
        have hlen : rest.length ≤ n := by
          simp only [List.length_cons] at hs
          omega
        rw [hcf, ih rest hlen]
        constructor
        · rintro ⟨i, j, hij, hsep, hi, hj⟩
          refine ⟨i + 1, j + 1, by omega, ?_,
            (occursAt_cons_succ _ _ _ _).mpr hi, (occursAt_cons_succ _ _ _ _).mpr hj⟩
          simp only [List.length_cons] at hsep ⊢
          omega
        · rintro ⟨i, j, hij, hsep, hi, hj⟩
          cases i with
          | zero =>
            exact absurd (by simpa [occursAt] using hi.2) (by simp [hpre2])
          | succ i2 =>
            cases j with
            | zero => omega
            | succ j2 =>
              refine ⟨i2, j2, by omega, ?_,
                (occursAt_cons_succ _ _ _ _).mp hi, (occursAt_cons_succ _ _ _ _).mp hj⟩
              simp only [List.length_cons] at hsep ⊢
              omega

theorem pyCount_two_iff (s pat : Str) : 1 < pyCount s pat ↔ TwoNO s pat := by
  cases pat with
  | nil =>
    simp only [pyCount]
    constructor
    · intro h
      refine ⟨0, 1, by omega, by simp, ⟨by simp, rfl⟩, ⟨by simp; omega, ?_⟩⟩
      cases s.drop 1 <;> rfl
    · rintro ⟨i, j, hij, _, _, hj⟩
      have := hj.1
      simp at this
      omega
  | cons p ps => exact countFrom_two_iff p ps s.length s (Nat.le_refl _)

theorem pyReplaceFirst_first_occ :
    ∀ (s old new : Str) (i : Nat),
      occursAt s old i → (∀ j, j < i → ¬ occursAt s old j) →
      pyReplaceFirst s old new = s.take i ++ new ++ s.drop (i + old.length) := by
  intro s old new
  cases old with
  | nil =>
    intro i hi hmin
    have hi0 : i = 0 := by
      by_contra hne
      exact hmin 0 (by omega) ⟨by simp, rfl⟩
    subst hi0
    simp [pyReplaceFirst]
  | cons o os =>
    induction s with
    | nil =>
      intro i hi _
      have := hi.1
      simp [List.length_cons] at this
    | cons c rest ihs =>
      intro i hi hmin
      by_cases hpre : isPre (o :: os) (c :: rest) = true
      · have hi0 : i = 0 := by
          by_contra hne
          exact hmin 0 (by omega)
            ⟨by simpa using isPre_len _ _ hpre, by simpa using hpre⟩
        subst hi0
        simp [pyReplaceFirst, replaceFirstAux, hpre]
      · have hpre2 : isPre (o :: os) (c :: rest) = false := by
          revert hpre
          cases isPre (o :: os) (c :: rest) <;> simp
        cases i with
        | zero =>
          exact absurd (by simpa [occursAt] using hi.2) (by simp [hpre2])
        | succ i2 =>
          have hrec := ihs i2 ((occursAt_cons_succ _ _ _ _).mp hi)
            (fun j hj hocc => hmin (j + 1) (by omega)
              ((occursAt_cons_succ _ _ _ _).mpr hocc))
          have hstep : pyReplaceFirst (c :: rest) (o :: os) new
              = c :: pyReplaceFirst rest (o :: os) new := by
            simp [pyReplaceFirst, replaceFirstAux, hpre2]
          rw [hstep, hrec]
          have harith : i2 + 1 + (o :: os).length = (i2 + (o :: os).length) + 1 := by
            omega
          rw [harith, List.drop_succ_cons, List.take_succ_cons]
          simp

/-- C2 counterexample: in content `aaa` the text `aa` occurs more than once
(at the two overlapping positions 0 and 1), yet `applyEdits` does not fail
with `ambiguousMatch`: it succeeds and replaces the first occurrence, because
the source's check is Python's non-overlapping `str.count`. -/
theorem c2_overlap_counterexample :
    occursAt (("aaa").toList) (("aa").toList) 0 ∧
    occursAt (("aaa").toList) (("aa").toList) 1 ∧
    applyEditsLoop (("aaa").toList) [⟨("aa").toList, ("x").toList⟩]
      = .ok (("xa").toList) :=
  ⟨by decide, by decide, by decide⟩

/-- C2 (amended): for every content and edit list, the edit loop fails with
`textNotFound` when `oldText` occurs nowhere in the current content, fails
with `ambiguousMatch` when `oldText` has two non-overlapping occurrences
(equivalently, its left-to-right non-overlapping count — Python's
`str.count` — exceeds one; overlapping duplicates are not detected), and
otherwise replaces the first occurrence of `oldText` with `newText`; content
`ab ab` with edit `ab → x` fails with `ambiguousMatch`, while content `ab`
with the same edit succeeds with final content `x`. -/
theorem c2_edit_uniqueness_amended :
    (∀ (content : Str) (e : EditOp) (rest : List EditOp),
        ((¬ ∃ i, occursAt content e.oldText i) →
          applyEditsLoop content (e :: rest)
            = .error (.textNotFound (e.oldText.take 50))) ∧
        ((∃ i, occursAt content e.oldText i) → TwoNO content e.oldText →
          applyEditsLoop content (e :: rest)
            = .error (.ambiguousMatch (e.oldText.take 50))) ∧
        ((∃ i, occursAt content e.oldText i) → ¬ TwoNO content e.oldText →
          applyEditsLoop content (e :: rest)
            = applyEditsLoop (pyReplaceFirst content e.oldText e.newText) rest)) ∧
    (∀ (s old new : Str) (i : Nat),
        occursAt s old i → (∀ j, j < i → ¬ occursAt s old j) →
        pyReplaceFirst s old new = s.take i ++ new ++ s.drop (i + old.length)) ∧
    applyEditsLoop (("ab ab").toList) [⟨("ab").toList, ("x").toList⟩]
      = .error (.ambiguousMatch (("ab").toList)) ∧
    applyEditsLoop (("ab").toList) [⟨("ab").toList, ("x").toList⟩]
      = .ok (("x").toList) := by
  refine ⟨?_, pyReplaceFirst_first_occ, by decide, by decide⟩
  intro content e rest
  refine ⟨?_, ?_, ?_⟩
  · intro h
    have hc : containsSub content e.oldText = false := by
      cases hb : containsSub content e.oldText
      · rfl
      · exact absurd ((containsSub_iff _ _).mp hb) h
    simp [applyEditsLoop, hc]
  · rintro ⟨i, hi⟩ htwo
    have hc : containsSub content e.oldText = true :=
      (containsSub_iff _ _).mpr ⟨i, hi⟩
    have hcount : 1 < pyCount content e.oldText := (pyCount_two_iff _ _).mpr htwo
    simp [applyEditsLoop, hc, hcount]
  · rintro ⟨i, hi⟩ htwo
    have hc : containsSub content e.oldText = true :=
      (containsSub_iff _ _).mpr ⟨i, hi⟩
    have hcount : ¬ 1 < pyCount content e.oldText :=
      fun h => htwo ((pyCount_two_iff _ _).mp h)
    simp [applyEditsLoop, hc, hcount]

/-- Witness for the amended C2: an absent text makes the loop fail with
`textNotFound` carrying the truncated preview. -/
theorem c2_edit_uniqueness_witness :
    applyEditsLoop (("abc").toList) [⟨("zz").toList, ("y").toList⟩]
      = .error (.textNotFound (("zz").toList)) :=
  (c2_edit_uniqueness_amended.1 (("abc").toList)
    ⟨("zz").toList, ("y").toList⟩ []).1
    (fun ⟨i, hocc⟩ =>
      absurd ((containsSub_iff _ _).mpr ⟨i, hocc⟩) (by decide))

/-- C6: edits are applied strictly in list order against the current working
copy, so mutations from earlier edits are visible to later ones: running an
edit list decomposes sequentially, content `foo` with edits `foo → bar` then
`bar → baz` ends as `baz`, and the reversed list fails with `textNotFound` on
its first edit. -/
theorem c6_sequential_edits :
    (∀ (c : Str) (es1 es2 : List EditOp),
        applyEditsLoop c (es1 ++ es2)
          = (match applyEditsLoop c es1 with
             | .ok c2 => applyEditsLoop c2 es2
             | .error e => .error e)) ∧
    applyEditsLoop (("foo").toList)
        [⟨("foo").toList, ("bar").toList⟩, ⟨("bar").toList, ("baz").toList⟩]
      = .ok (("baz").toList) ∧
    applyEditsLoop (("foo").toList)
        [⟨("bar").toList, ("baz").toList⟩, ⟨("foo").toList, ("bar").toList⟩]
      = .error (.textNotFound (("bar").toList)) := by
  refine ⟨?_, by decide, by decide⟩
  intro c es1 es2
  induction es1 generalizing c with
  | nil => rfl
  | cons e rest ih =>
    show applyEditsLoop c (e :: (rest ++ es2)) = _
    by_cases h1 : containsSub c e.oldText = false
    · simp [applyEditsLoop, h1]
    · by_cases h2 : 1 < pyCount c e.oldText
      · simp [applyEditsLoop, h1, h2]
      · simp [applyEditsLoop, h1, h2, ih]

/-! ### Write atomicity, dry runs, and the diff format -/

/-- C3: with `dryRun` false, a failing edit call leaves the filesystem state —
and hence the on-disk file content — exactly as it was before the call, even
though earlier edits of the list had already been applied to the in-memory
working copy: the single write happens only after the whole edit loop has
succeeded. -/
theorem c3_atomic_failure :
    ∀ (fs : FS) (p : Str) (edits : List EditOp) (e : Err),
      (apply_file_edits fs p edits false).2 = .error e →
      (apply_file_edits fs p edits false).1 = fs := by
  intro fs p edits e h
  unfold apply_file_edits at h ⊢
  split
  · rfl
  · rename_i old heq
    split
    · rfl
    · rename_i new hl
      simp [heq, hl] at h

/-- OS state with the single file `/r/f` containing `foo`. -/
def fsEditFoo : FS where
  home := ("/home/u").toList
  cwd := ("/").toList
  realpath := fun a => some a
  files := [(("/r/f").toList, ("foo").toList)]
  dirs := [("/r").toList]
  statInfo := fun _ => none

/-- Witness for C3: the first edit succeeds in memory, the second fails with
`textNotFound`, and the state after the call equals the state before it. -/
theorem c3_atomic_failure_witness :
    applyEditsLoop (("foo").toList) [⟨("foo").toList, ("bar").toList⟩]
        = .ok (("bar").toList) ∧
    (apply_file_edits fsEditFoo (("/r/f").toList)
        [⟨("foo").toList, ("bar").toList⟩, ⟨("zap").toList, ("q").toList⟩] false).2
      = .error (.textNotFound (("zap").toList)) ∧
    (apply_file_edits fsEditFoo (("/r/f").toList)
        [⟨("foo").toList, ("bar").toList⟩, ⟨("zap").toList, ("q").toList⟩] false).1
      = fsEditFoo :=
  ⟨by decide, by decide,
    c3_atomic_failure fsEditFoo (("/r/f").toList)
      [⟨("foo").toList, ("bar").toList⟩, ⟨("zap").toList, ("q").toList⟩]
      (.textNotFound (("zap").toList)) (by decide)⟩

/-- C7: a dry-run edit call never changes the filesystem state, regardless of
edit validity, and its result — the diff on success, or the error — is
exactly the result the corresponding non-dry-run call produces. -/
theorem c7_dry_run_frame :
    ∀ (fs : FS) (p : Str) (edits : List EditOp),
      (apply_file_edits fs p edits true).1 = fs ∧
      (apply_file_edits fs p edits true).2 = (apply_file_edits fs p edits false).2 := by
  intro fs p edits
  unfold apply_file_edits
  refine ⟨?_, ?_⟩
  · split
    · rfl
    · split <;> rfl
  · split
    · rfl
    · split <;> rfl

theorem groupSplit_ne_nil (n : Nat) :
    ∀ (codes : List Opcode) (group : List Opcode),
      ∀ g ∈ groupSplit n codes group, g ≠ [] := by
  intro codes
  induction codes with
  | nil =>
    intro group g hg
    simp only [groupSplit] at hg
    split at hg
    · next hcond =>
      have hgg := List.mem_singleton.mp hg
      subst hgg
      exact hcond.1
    · simp at hg
  | cons c rest ih =>
    intro group g hg
    simp only [groupSplit] at hg
    split at hg
    · rcases List.mem_cons.mp hg with rfl | h
      · simp
      · exact ih _ g h
    · exact ih _ g hg

theorem hunkHeader_isPre (g : List Opcode) (hg : g ≠ []) :
    isPre (("@@ -").toList) (hunkHeader g) = true := by
  cases g with
  | nil => exact absurd rfl hg
  | cons c rest => rfl

theorem opcodeLines_shape (a b : List Str) (c : Opcode) :
    ∀ l ∈ opcodeLines a b c,
      (∃ t, l = ' ' :: t) ∨ (∃ t, l = '-' :: t) ∨ (∃ t, l = '+' :: t) := by
  intro l hl
  unfold opcodeLines at hl
  split at hl
  · obtain ⟨x, _, rfl⟩ := List.mem_map.mp hl
    exact Or.inl ⟨x, rfl⟩
  · rcases List.mem_append.mp hl with h | h
    · split at h
      · obtain ⟨x, _, rfl⟩ := List.mem_map.mp h
        exact Or.inr (Or.inl ⟨x, rfl⟩)
      · simp at h
    · split at h
      · obtain ⟨x, _, rfl⟩ := List.mem_map.mp h
        exact Or.inr (Or.inr ⟨x, rfl⟩)
      · simp at h

/-! ### The diff of equal line lists is empty

`apply_file_edits` joins its two labelled header lines with the whole
`unified_diff` output, so the diff body is empty exactly when difflib
produces no opcode groups.  The lemmas below prove that on two equal line
lists the matcher always finds the full-length diagonal match — also under
the `autojunk` filtering of popular lines — so the single `equal` opcode is
trimmed away and `unified_diff a a = []` for every `a`. -/

/-- First step of an association-list `lookup`. -/
theorem lookup_cons_gen {α β : Type} [DecidableEq α] [BEq α] [LawfulBEq α]
    (k : α) (v : β) (es : List (α × β)) (x : α) :
    ((k, v) :: es).lookup x = if k = x then some v else es.lookup x := by
  by_cases h : k = x
  · subst h
    rw [if_pos rfl]
    simp [List.lookup]
  · rw [if_neg h]
    simp only [List.lookup]
    rw [beq_eq_false_iff_ne.mpr (Ne.symm h)]

/-- Ascending list of the indices at which line `x` occurs in `l`, counting
from `t`: the index list a surviving `b2j` entry holds. -/
def occIdx (x : Str) : List Str → Nat → List Nat
  | [], _ => []
  | y :: rest, t =>
    if y = x then t :: occIdx x rest (t + 1) else occIdx x rest (t + 1)

theorem occIdx_ge (x : Str) :
    ∀ (l : List Str) (t : Nat), ∀ j ∈ occIdx x l t, t ≤ j := by
  intro l
  induction l with
  | nil => intro t j hj; simp [occIdx] at hj
  | cons y rest ih =>
    intro t j hj
    simp only [occIdx] at hj
    split at hj
    · rcases List.mem_cons.mp hj with rfl | hj2
      · exact Nat.le_refl j
      · exact Nat.le_of_succ_le (ih (t + 1) j hj2)
    · exact Nat.le_of_succ_le (ih (t + 1) j hj)

theorem occIdx_sorted (x : Str) :
    ∀ (l : List Str) (t : Nat), (occIdx x l t).Pairwise (· < ·) := by
  intro l
  induction l with
  | nil => intro t; simp [occIdx]
  | cons y rest ih =>
    intro t
    simp only [occIdx]
    split
    · exact List.Pairwise.cons
        (fun j hj => Nat.lt_of_lt_of_le (Nat.lt_succ_self t)
          (occIdx_ge x rest (t + 1) j hj))
        (ih (t + 1))
    · exact ih (t + 1)

theorem occIdx_mem (x : Str) :
    ∀ (l : List Str) (t j : Nat),
      j ∈ occIdx x l t ↔ ∃ m, j = t + m ∧ m < l.length ∧ l.getD m [] = x := by
  intro l
  induction l with
  | nil =>
    intro t j
    simp [occIdx]
  | cons y rest ih =>
    intro t j
    simp only [occIdx]
    constructor
    · intro hj
      by_cases hyx : y = x
      · rw [if_pos hyx] at hj
        rcases List.mem_cons.mp hj with rfl | hj2
        · exact ⟨0, by omega, Nat.succ_pos _, hyx⟩
        · obtain ⟨m, hm1, hm2, hm3⟩ := (ih (t + 1) j).mp hj2
          exact ⟨m + 1, by omega, by simpa using hm2, by simpa using hm3⟩
      · rw [if_neg hyx] at hj
        obtain ⟨m, hm1, hm2, hm3⟩ := (ih (t + 1) j).mp hj
        exact ⟨m + 1, by omega, by simpa using hm2, by simpa using hm3⟩
    · rintro ⟨m, rfl, hm2, hm3⟩
      cases m with
      | zero =>
        rw [List.getD_cons_zero] at hm3
        rw [if_pos hm3]
        exact List.mem_cons_self _ _
      | succ m =>
        rw [List.getD_cons_succ] at hm3
        have hmem : t + (m + 1) ∈ occIdx x rest (t + 1) :=
          (ih (t + 1) (t + (m + 1))).mpr ⟨m, by omega, by simpa using hm2, hm3⟩
        split
        · exact List.mem_cons_of_mem _ hmem
        · exact hmem

/-- `occIdx` at offset zero lists exactly the positions of `x` in `a`. -/
theorem occIdx_mem_zero (x : Str) (a : List Str) (j : Nat) :
    j ∈ occIdx x a 0 ↔ j < a.length ∧ getAt a j = x := by
  rw [occIdx_mem]
  constructor
  · rintro ⟨m, rfl, h2, h3⟩
    rw [Nat.zero_add]
    exact ⟨h2, h3⟩
  · rintro ⟨h1, h2⟩
    exact ⟨j, by omega, h1, h2⟩

/-- Effect of `b2jAdd` on lookups: the addressed key gains the index at the
end of its list, every other key is untouched. -/
theorem lookup_b2jAdd (key : Str) (idx : Nat) :
    ∀ (m : List (Str × List Nat)) (x : Str),
      (b2jAdd m key idx).lookup x
        = if x = key then some ((m.lookup key).getD [] ++ [idx])
          else m.lookup x := by
  intro m
  induction m with
  | nil =>
    intro x
    by_cases h : x = key
    · subst h
      simp [b2jAdd, lookup_cons_gen]
    · simp [b2jAdd, lookup_cons_gen, h, Ne.symm h]
  | cons kv rest ih =>
    intro x
    obtain ⟨k, v⟩ := kv
    by_cases hk : k = key
    · subst hk
      by_cases hx : x = k
      · subst hx
        simp [b2jAdd, lookup_cons_gen]
      · simp [b2jAdd, lookup_cons_gen, hx, Ne.symm hx]
    · by_cases hx : x = key
      · subst hx
        simp [b2jAdd, lookup_cons_gen, hk, Ne.symm hk, ih]
      · by_cases hkx : k = x
        · subst hkx
          simp [b2jAdd, lookup_cons_gen, hk, hx, ih]
        · simp [b2jAdd, lookup_cons_gen, hk, hx, hkx, ih]

/-- Lookup through the `__chain_b` index-building fold. -/
theorem lookup_enumFold (x : Str) :
    ∀ (l : List Str) (t : Nat) (m : List (Str × List Nat)),
      ((List.enumFrom t l).foldl (fun m p => b2jAdd m p.2 p.1) m).lookup x
        = match m.lookup x with
          | some v => some (v ++ occIdx x l t)
          | none =>
            if occIdx x l t = [] then none else some (occIdx x l t) := by
  intro l
  induction l with
  | nil =>
    intro t m
    simp only [List.enumFrom, List.foldl_nil, occIdx]
    cases h : m.lookup x with
    | none => simp
    | some v => simp
  | cons y rest ih =>
    intro t m
    simp only [List.enumFrom, List.foldl_cons]
    rw [ih (t + 1) (b2jAdd m y t)]
    rw [lookup_b2jAdd]
    by_cases hxy : x = y
    · subst hxy
      rw [if_pos rfl]
      simp only [occIdx, if_pos rfl]
      cases h : m.lookup x with
      | none => simp
      | some v => simp
    · rw [if_neg hxy]
      simp only [occIdx, if_neg (Ne.symm hxy)]

/-- Keys after `b2jAdd`: unchanged when present, appended when new. -/
theorem keys_b2jAdd (key : Str) (idx : Nat) :
    ∀ (m : List (Str × List Nat)),
      (b2jAdd m key idx).map Prod.fst
        = if key ∈ m.map Prod.fst then m.map Prod.fst
          else m.map Prod.fst ++ [key] := by
  intro m
  induction m with
  | nil => simp [b2jAdd]
  | cons kv rest ih =>
    obtain ⟨k, v⟩ := kv
    simp only [b2jAdd]
    by_cases hk : k = key
    · subst hk
      rw [if_pos rfl, if_pos (by simp)]
      rfl
    · rw [if_neg hk]
      simp only [List.map_cons]
      rw [ih]
      by_cases hmem : key ∈ rest.map Prod.fst
      · rw [if_pos hmem, if_pos (List.mem_cons_of_mem k hmem)]
      · rw [if_neg hmem,
          if_neg (fun hc => by
            rcases List.mem_cons.mp hc with h | h
            · exact hk h.symm
            · exact hmem h)]
        rfl

theorem keys_nodup_b2jAdd (key : Str) (idx : Nat)
    (m : List (Str × List Nat)) (h : (m.map Prod.fst).Nodup) :
    ((b2jAdd m key idx).map Prod.fst).Nodup := by
  rw [keys_b2jAdd]
  split
  · exact h
  · rename_i hnot
    exact h.append (List.nodup_singleton key)
      (fun a ha hb => by
        rw [List.mem_singleton] at hb
        subst hb
        exact hnot ha)

theorem keys_nodup_enumFold :
    ∀ (l : List (Nat × Str)) (m : List (Str × List Nat)),
      (m.map Prod.fst).Nodup →
      ((l.foldl (fun m p => b2jAdd m p.2 p.1) m).map Prod.fst).Nodup := by
  intro l
  induction l with
  | nil => intro m h; exact h
  | cons p rest ih =>
    intro m h
    exact ih (b2jAdd m p.2 p.1) (keys_nodup_b2jAdd p.2 p.1 m h)

theorem lookup_none_of_not_mem_keys {β : Type} :
    ∀ (m : List (Str × β)) (x : Str),
      x ∉ m.map Prod.fst → m.lookup x = none := by
  intro m
  induction m with
  | nil => intro x _; rfl
  | cons kv rest ih =>
    intro x hx
    obtain ⟨k, v⟩ := kv
    simp only [List.map_cons, List.mem_cons] at hx
    push_neg at hx
    rw [lookup_cons_gen, if_neg (fun h => hx.1 h.symm)]
    exact ih x hx.2

/-- Filtering an association list with distinct keys either drops or keeps a
key's entry whole: the lookup is `none` or the unfiltered lookup. -/
theorem lookup_filter_nodup {β : Type} (P : Str × β → Bool) :
    ∀ (m : List (Str × β)), (m.map Prod.fst).Nodup → ∀ x,
      (m.filter P).lookup x = none ∨ (m.filter P).lookup x = m.lookup x := by
  intro m
  induction m with
  | nil => intro _ x; left; rfl
  | cons kv rest ih =>
    intro hnd x
    obtain ⟨k, v⟩ := kv
    have hnd2 : k ∉ rest.map Prod.fst ∧ (rest.map Prod.fst).Nodup := by
      simp only [List.map_cons, List.nodup_cons] at hnd
      exact hnd
    by_cases hP : P (k, v)
    · rw [List.filter_cons_of_pos hP, lookup_cons_gen, lookup_cons_gen]
      by_cases hk : k = x
      · right
        rw [if_pos hk, if_pos hk]
      · rw [if_neg hk, if_neg hk]
        exact ih hnd2.2 x
    · rw [List.filter_cons_of_neg (by simpa using hP), lookup_cons_gen]
      by_cases hk : k = x
      · subst hk
        left
        apply lookup_none_of_not_mem_keys
        intro hc
        obtain ⟨kv2, hkv2, hfst⟩ := List.mem_map.mp hc
        exact hnd2.1 (List.mem_map.mpr ⟨kv2, List.mem_of_mem_filter hkv2, hfst⟩)
      · rw [if_neg hk]
        exact ih hnd2.2 x

/-- What the proofs need of the `b2j` table built by `chainB`: every entry is
either deleted whole (the `autojunk` case) or the full ascending list of the
key's positions in `a`. -/
def TblOK (a : List Str) (tbl : List (Str × List Nat)) : Prop :=
  ∀ x, b2jGet tbl x = [] ∨ b2jGet tbl x = occIdx x a 0

theorem chainB_tblOK (a : List Str) : TblOK a (chainB a) := by
  intro x
  have hm0 : (a.enum.foldl (fun m p => b2jAdd m p.2 p.1)
      ([] : List (Str × List Nat))).lookup x
      = if occIdx x a 0 = [] then none else some (occIdx x a 0) := by
    have h := lookup_enumFold x a 0 []
    simpa [List.enum] using h
  have hnd : ((a.enum.foldl (fun m p => b2jAdd m p.2 p.1)
      ([] : List (Str × List Nat))).map Prod.fst).Nodup :=
    keys_nodup_enumFold a.enum [] (by simp)
  unfold chainB b2jGet
  split
  · rcases lookup_filter_nodup _ _ hnd x with h | h
    · left
      rw [h]
      rfl
    · rw [h, hm0]
      split
      · left; rfl
      · right; rfl
  · rw [hm0]
    split
    · left; rfl
    · right; rfl

/-- Lookup in a `j2len` row after adding one entry. -/
theorem j2lenGet_cons (j k : Nat) (acc : List (Nat × Nat)) (j0 : Nat) :
    j2lenGet ((j, k) :: acc) j0 = if j = j0 then k else j2lenGet acc j0 := by
  unfold j2lenGet
  rw [lookup_cons_gen]
  split
  · rfl
  · rfl

/-- Length of the run of lines with surviving `b2j` entries ending just
below row `r`: the value the diagonal `j2len` chain reaches entering row
`r` when the two compared sequences are equal. -/
def dsS (tbl : List (Str × List Nat)) (a : List Str) : Nat → Nat
  | 0 => 0
  | r + 1 => if b2jGet tbl (getAt a r) = [] then 0 else dsS tbl a r + 1

theorem dsS_le (tbl : List (Str × List Nat)) (a : List Str) :
    ∀ n, dsS tbl a n ≤ n := by
  intro n
  induction n with
  | zero => exact Nat.le_refl 0
  | succ n ih =>
    simp only [dsS]
    split
    · exact Nat.zero_le _
    · omega

theorem dsS_succ_np (tbl : List (Str × List Nat)) (a : List Str) (j : Nat)
    (h : b2jGet tbl (getAt a j) ≠ []) :
    dsS tbl a (j + 1) = dsS tbl a j + 1 := by
  simp only [dsS]
  rw [if_neg h]

theorem dsS_succ_junk (tbl : List (Str × List Nat)) (a : List Str) (j : Nat)
    (h : b2jGet tbl (getAt a j) = []) :
    dsS tbl a (j + 1) = 0 := by
  simp only [dsS]
  rw [if_pos h]

/-- Invariant of the inner `find_longest_match` loop on equal sequences: the
best match stays diagonal, chain values are bounded by the surviving-entry
streaks, and after the row's own index is processed the best size dominates
the diagonal chain through this row. -/
theorem innerJ_self_inv (a : List Str) (tbl : List (Str × List Nat))
    (r : Nat) (hr : r < a.length)
    (prev : List (Nat × Nat))
    (hprev : ∀ j, j2lenGet prev j ≤ dsS tbl a (j + 1) ∧
      j2lenGet prev j ≤ dsS tbl a r)
    (hpdiag : r = 0 ∨ j2lenGet prev (r - 1) = dsS tbl a r)
    (hnp : b2jGet tbl (getAt a r) ≠ []) :
    ∀ (js : List Nat) (acc : List (Nat × Nat)) (best : MatchTriple),
      (∀ j ∈ js, j < a.length ∧ getAt a j = getAt a r) →
      best.besti = best.bestj →
      best.besti + best.size ≤ a.length →
      (∀ j2, j2 ≤ r → dsS tbl a j2 ≤ best.size) →
      (∀ j, j2lenGet acc j ≤ dsS tbl a (j + 1) ∧
        j2lenGet acc j ≤ dsS tbl a (r + 1)) →
      ((js.Pairwise (· < ·) ∧ r ∈ js) ∨
        (dsS tbl a (r + 1) ≤ best.size ∧
          j2lenGet acc r = dsS tbl a (r + 1))) →
      (innerJ prev 0 a.length r js acc best).2.besti
          = (innerJ prev 0 a.length r js acc best).2.bestj ∧
        (innerJ prev 0 a.length r js acc best).2.besti
            + (innerJ prev 0 a.length r js acc best).2.size ≤ a.length ∧
        (∀ j2, j2 ≤ r + 1 →
          dsS tbl a j2 ≤ (innerJ prev 0 a.length r js acc best).2.size) ∧
        (∀ j, j2lenGet (innerJ prev 0 a.length r js acc best).1 j
            ≤ dsS tbl a (j + 1) ∧
          j2lenGet (innerJ prev 0 a.length r js acc best).1 j
            ≤ dsS tbl a (r + 1)) ∧
        j2lenGet (innerJ prev 0 a.length r js acc best).1 r
          = dsS tbl a (r + 1) := by
  intro js
  induction js with
  | nil =>
    intro acc best hsound hbd hbla hM hacc hphase
    rcases hphase with ⟨_, hmem⟩ | ⟨h1, h2⟩
    · exact absurd hmem (List.not_mem_nil r)
    · refine ⟨hbd, hbla, ?_, hacc, h2⟩
      intro j2 hj2
      rcases Nat.lt_or_ge j2 (r + 1) with h | h
      · exact hM j2 (Nat.lt_succ_iff.mp h)
      · rw [Nat.le_antisymm hj2 h]
        exact h1
  | cons j js ih =>
    intro acc best hsound hbd hbla hM hacc hphase
    obtain ⟨hjla, hjeq⟩ := hsound j (List.mem_cons_self j js)
    have hnpj : b2jGet tbl (getAt a j) ≠ [] := by rw [hjeq]; exact hnp
    obtain ⟨kj, hkj⟩ :
        ∃ k, k = (if j = 0 then 0 else j2lenGet prev (j - 1)) + 1 := ⟨_, rfl⟩
    have hk1 : kj ≤ dsS tbl a (j + 1) := by
      rcases Nat.eq_zero_or_pos j with hj0 | hjpos
      · subst hj0
        rw [hkj, if_pos rfl, dsS_succ_np tbl a 0 hnpj]
        have : dsS tbl a 0 = 0 := rfl
        omega
      · have hsub : j - 1 + 1 = j := by omega
        have hp := (hprev (j - 1)).1
        rw [hsub] at hp
        rw [hkj, if_neg (by omega), dsS_succ_np tbl a j hnpj]
        omega
    have hk2 : kj ≤ dsS tbl a (r + 1) := by
      rw [dsS_succ_np tbl a r hnp]
      rcases Nat.eq_zero_or_pos j with hj0 | hjpos
      · subst hj0
        rw [hkj, if_pos rfl]
        omega
      · have hp := (hprev (j - 1)).2
        rw [hkj, if_neg (by omega)]
        omega
    have hkdiag : j = r → kj = dsS tbl a (r + 1) := by
      intro hjr
      subst hjr
      rw [dsS_succ_np tbl a j hnpj]
      rcases Nat.eq_zero_or_pos j with hj0 | hjpos
      · subst hj0
        rw [hkj, if_pos rfl]
        have : dsS tbl a 0 = 0 := rfl
        omega
      · rcases hpdiag with h0 | hd
        · omega
        · rw [hkj, if_neg (by omega), hd]
    have hstep : innerJ prev 0 a.length r (j :: js) acc best
        = innerJ prev 0 a.length r js ((j, kj) :: acc)
            (if kj > best.size then ⟨r + 1 - kj, j + 1 - kj, kj⟩ else best) := by
      rw [hkj]
      simp only [innerJ]
      rw [if_neg (Nat.not_lt_zero j), if_neg (Nat.not_le.mpr hjla)]
    have hacc2 : ∀ j0, j2lenGet ((j, kj) :: acc) j0 ≤ dsS tbl a (j0 + 1) ∧
        j2lenGet ((j, kj) :: acc) j0 ≤ dsS tbl a (r + 1) := by
      intro j0
      rw [j2lenGet_cons]
      split
      · rename_i hjj0
        rw [← hjj0]
        exact ⟨hk1, hk2⟩
      · exact hacc j0
    have hsound2 : ∀ j2 ∈ js, j2 < a.length ∧ getAt a j2 = getAt a r :=
      fun j2 hj2 => hsound j2 (List.mem_cons_of_mem j hj2)
    rw [hstep]
    by_cases hgt : kj > best.size
    · -- a best update: it can only happen on the diagonal
      have hjr : j = r := by
        rcases hphase with ⟨hsort, hmem⟩ | ⟨hsz, hgetr⟩
        · rcases List.mem_cons.mp hmem with h | hmemtl
          · exact h.symm
          · have hjr2 : j < r := (List.pairwise_cons.mp hsort).1 r hmemtl
            have hb := hM (j + 1) (by omega)
            omega
        · omega
      subst hjr
      rw [if_pos hgt]
      have hkd := hkdiag rfl
      have hdle := dsS_le tbl a (j + 1)
      refine ih ((j, kj) :: acc) ⟨j + 1 - kj, j + 1 - kj, kj⟩ hsound2 rfl
        (by show j + 1 - kj + kj ≤ a.length; omega)
        (fun j2 hj2 => by
          have hb := hM j2 hj2
          show dsS tbl a j2 ≤ kj
          omega)
        hacc2 (Or.inr ⟨?_, ?_⟩)
      · show dsS tbl a (j + 1) ≤ kj
        omega
      · rw [j2lenGet_cons, if_pos rfl]
        exact hkd
    · rw [if_neg hgt]
      rcases hphase with ⟨hsort, hmem⟩ | ⟨hsz, hgetr⟩
      · rcases List.mem_cons.mp hmem with hjr | hmemtl
        · -- the diagonal was processed without an update
          have hkd := hkdiag hjr.symm
          refine ih ((j, kj) :: acc) best hsound2 hbd hbla hM hacc2
            (Or.inr ⟨by omega, ?_⟩)
          rw [j2lenGet_cons, if_pos hjr.symm]
          exact hkd
        · exact ih ((j, kj) :: acc) best hsound2 hbd hbla hM hacc2
            (Or.inl ⟨(List.pairwise_cons.mp hsort).2, hmemtl⟩)
      · refine ih ((j, kj) :: acc) best hsound2 hbd hbla hM hacc2
          (Or.inr ⟨hsz, ?_⟩)
        rw [j2lenGet_cons]
        split
        · rename_i hjj0
          exact hkdiag hjj0
        · exact hgetr

/-- Invariant of the outer `find_longest_match` loop on equal sequences:
the best match stays diagonal and inside the sequence. -/
theorem flmLoop_self_inv (a : List Str) (tbl : List (Str × List Nat))
    (hT : TblOK a tbl) :
    ∀ (cnt r : Nat) (prev : List (Nat × Nat)) (best : MatchTriple),
      r + cnt = a.length →
      best.besti = best.bestj →
      best.besti + best.size ≤ a.length →
      (∀ j2, j2 ≤ r → dsS tbl a j2 ≤ best.size) →
      (∀ j, j2lenGet prev j ≤ dsS tbl a (j + 1) ∧
        j2lenGet prev j ≤ dsS tbl a r) →
      (r = 0 ∨ j2lenGet prev (r - 1) = dsS tbl a r) →
      (flmLoop tbl a 0 a.length (List.range' r cnt) prev best).besti
          = (flmLoop tbl a 0 a.length (List.range' r cnt) prev best).bestj ∧
        (flmLoop tbl a 0 a.length (List.range' r cnt) prev best).besti
            + (flmLoop tbl a 0 a.length (List.range' r cnt) prev best).size
          ≤ a.length := by
  intro cnt
  induction cnt with
  | zero =>
    intro r prev best hcnt hbd hbla hM hprev hpdiag
    exact ⟨hbd, hbla⟩
  | succ cnt ih =>
    intro r prev best hcnt hbd hbla hM hprev hpdiag
    have hr : r < a.length := by omega
    have hrg : List.range' r (cnt + 1) = r :: List.range' (r + 1) cnt := rfl
    rw [hrg]
    simp only [flmLoop]
    rcases hT (getAt a r) with hjs | hjs
    · rw [hjs]
      simp only [innerJ]
      refine ih (r + 1) [] best (by omega) hbd hbla ?_ ?_ ?_
      · intro j2 hj2
        rcases Nat.lt_or_ge j2 (r + 1) with h | h
        · exact hM j2 (by omega)
        · rw [Nat.le_antisymm hj2 h, dsS_succ_junk tbl a r hjs]
          exact Nat.zero_le _
      · intro j
        exact ⟨Nat.zero_le _, Nat.zero_le _⟩
      · right
        show j2lenGet [] r = dsS tbl a (r + 1)
        rw [dsS_succ_junk tbl a r hjs]
        rfl
    · rw [hjs]
      have hrmem : r ∈ occIdx (getAt a r) a 0 :=
        (occIdx_mem_zero _ a r).mpr ⟨hr, rfl⟩
      have hnp : b2jGet tbl (getAt a r) ≠ [] := by
        rw [hjs]
        intro hc
        rw [hc] at hrmem
        exact List.not_mem_nil r hrmem
      have hinner := innerJ_self_inv a tbl r hr prev hprev hpdiag hnp
        (occIdx (getAt a r) a 0) [] best
        (fun j hj => (occIdx_mem_zero _ a j).mp hj)
        hbd hbla hM
        (fun j => ⟨Nat.zero_le _, Nat.zero_le _⟩)
        (Or.inl ⟨occIdx_sorted _ a 0, hrmem⟩)
      obtain ⟨h1, h2, h3, h4, h5⟩ := hinner
      exact ih (r + 1) _ _ (by omega) h1 h2 h3 h4 (Or.inr h5)

theorem extendLeftAux_diag (a : List Str) :
    ∀ (n k : Nat), extendLeftAux a a 0 0 n ⟨n, n, k⟩ = ⟨0, 0, k + n⟩ := by
  intro n
  induction n with
  | zero => intro k; rfl
  | succ n ih =>
    intro k
    simp only [extendLeftAux]
    rw [if_pos ⟨Nat.succ_pos n, Nat.succ_pos n, trivial⟩]
    show extendLeftAux a a 0 0 n ⟨n, n, k + 1⟩ = ⟨0, 0, k + (n + 1)⟩
    rw [ih (k + 1)]
    have : k + 1 + n = k + (n + 1) := by omega
    rw [this]

theorem extendRightAux_diag (a : List Str) :
    ∀ (fuel sz : Nat), sz ≤ a.length → a.length ≤ sz + fuel →
      extendRightAux a a a.length a.length fuel ⟨0, 0, sz⟩
        = ⟨0, 0, a.length⟩ := by
  intro fuel
  induction fuel with
  | zero =>
    intro sz h1 h2
    have h : sz = a.length := by omega
    rw [h]
    rfl
  | succ fuel ih =>
    intro sz h1 h2
    simp only [extendRightAux]
    by_cases hlt : sz < a.length
    · rw [if_pos ⟨by omega, by omega, trivial⟩]
      exact ih (sz + 1) (by omega) (by omega)
    · rw [if_neg (fun hc => hlt (by omega))]
      have h : sz = a.length := by omega
      rw [h]

/-- On equal sequences `find_longest_match` over the whole range returns the
full-length diagonal match, whatever entries `autojunk` deleted. -/
theorem find_longest_match_self (a : List Str) (tbl : List (Str × List Nat))
    (hT : TblOK a tbl) :
    find_longest_match a a tbl 0 a.length 0 a.length = ⟨0, 0, a.length⟩ := by
  unfold find_longest_match
  rw [Nat.sub_zero]
  have h := flmLoop_self_inv a tbl hT a.length 0 [] ⟨0, 0, 0⟩ (by omega) rfl
    (by show 0 + 0 ≤ a.length; omega)
    (fun j2 hj2 => by
      rw [Nat.le_zero.mp hj2]
      exact Nat.le_refl 0)
    (fun j => ⟨Nat.zero_le _, Nat.zero_le _⟩) (Or.inl rfl)
  set best := flmLoop tbl a 0 a.length (List.range' 0 a.length) [] ⟨0, 0, 0⟩
    with hbdef
  clear_value best
  obtain ⟨hbd, hbla⟩ := h
  obtain ⟨bi, bj, sz⟩ := best
  dsimp only at hbd hbla
  rw [← hbd]
  show extendRight a a a.length a.length (extendLeft a a 0 0 ⟨bi, bi, sz⟩)
    = ⟨0, 0, a.length⟩
  rw [show extendLeft a a 0 0 ⟨bi, bi, sz⟩ = ⟨0, 0, sz + bi⟩ from
    extendLeftAux_diag a bi sz]
  show extendRightAux a a a.length a.length a.length ⟨0, 0, sz + bi⟩
    = ⟨0, 0, a.length⟩
  exact extendRightAux_diag a a.length (sz + bi) (by omega) (by omega)

/-- On equal sequences the block queue produces the single full block. -/
theorem mbLoop_self (a : List Str) (tbl : List (Str × List Nat))
    (hflm : find_longest_match a a tbl 0 a.length 0 a.length
      = ⟨0, 0, a.length⟩) (f : Nat) :
    mbLoop a a tbl (f + 1 + 1) [(0, a.length, 0, a.length)] []
      = if a.length = 0 then [] else [⟨0, 0, a.length⟩] := by
  simp only [mbLoop, hflm]
  by_cases h0 : a.length = 0
  · rw [if_pos h0, if_neg (fun hc => hc h0)]
  · rw [if_neg h0, if_pos h0, if_neg (by omega), if_neg (by omega)]
    rfl

theorem get_matching_blocks_self (a : List Str) :
    get_matching_blocks a a
      = if a.length = 0 then [⟨a.length, a.length, 0⟩]
        else [⟨0, 0, a.length⟩, ⟨a.length, a.length, 0⟩] := by
  simp only [get_matching_blocks]
  have hmb := mbLoop_self a (chainB a)
    (find_longest_match_self a (chainB a) (chainB_tblOK a))
    (2 * (a.length + a.length) + 2)
  rw [show 2 * (a.length + a.length) + 4
      = 2 * (a.length + a.length) + 2 + 1 + 1 from rfl]
  rw [hmb]
  by_cases h0 : a.length = 0
  · rw [if_pos h0, if_pos h0]
    rfl
  · rw [if_neg h0, if_neg h0]
    simp only [stableSort, List.foldr, insSorted, mergeBlocks]
    rw [if_pos (by simp), if_pos (by omega)]
    rw [Nat.zero_add]
    rfl

theorem get_opcodes_self (a : List Str) :
    get_opcodes a a
      = if a.length = 0 then []
        else [⟨.equal, 0, a.length, 0, a.length⟩] := by
  unfold get_opcodes
  rw [get_matching_blocks_self]
  by_cases h0 : a.length = 0
  · rw [if_pos h0, if_pos h0, h0]
    rfl
  · rw [if_neg h0, if_neg h0]
    simp only [opcodesLoop]
    rw [if_neg (by omega), if_neg (by omega), if_neg (by omega), if_pos h0,
      if_neg (by omega), if_neg (by omega), if_neg (by omega),
      if_neg (by omega)]
    simp [Nat.zero_add]

theorem get_grouped_opcodes_self (a : List Str) :
    get_grouped_opcodes a a 3 = [] := by
  simp only [get_grouped_opcodes]
  rw [get_opcodes_self]
  by_cases h0 : a.length = 0
  · rw [if_pos h0]
    rfl
  · rw [if_neg h0, if_neg (by simp)]
    simp only [modLast, groupSplit, if_true, true_and, Nat.zero_max,
      List.nil_append]
    rw [if_neg (by
      rw [Nat.min_def]
      split <;> omega)]
    rw [if_neg (by
      intro hc
      exact hc.2 ⟨rfl, rfl⟩)]

/-- The unified diff of two equal line lists is empty: the matcher always
recovers the full-length diagonal match, so difflib sees a single `equal`
opcode, trims it and produces no group. -/
theorem unified_diff_self (a : List Str) : unified_diff a a = [] := by
  unfold unified_diff
  rw [get_grouped_opcodes_self]

/-- OS state with the single file `/r/f` containing `a`. -/
def fsEditA : FS where
  home := ("/home/u").toList
  cwd := ("/").toList
  realpath := fun a => some a
  files := [(("/r/f").toList, ("a").toList)]
  dirs := [("/r").toList]
  statInfo := fun _ => none

/-- C5 (amended): every successful `applyEdits` call returns the
newline-join of: one `--- ` line and one `+++ ` line labeled with the file's
path, followed by the entire `difflib.unified_diff` output of the old versus
new `splitlines` line lists.  That output is empty whenever the two line
lists are equal — even when the byte content changed, as for the
splitlines-invisible edit of `a` to `a\n`, which returns exactly one `---`
and one `+++` line while rewriting the file — and whenever it is non-empty
it begins with a second, unlabeled `--- `/`+++ ` header pair and then
consists of `@@ -` hunk headers and space/`-`/`+` prefixed lines, so the
diff then has two `---` header lines, only the first labeled with the
path. -/
theorem c5_diff_format_amended :
    (∀ (fs : FS) (p : Str) (edits : List EditOp) (dry : Bool) (res : Str),
        (apply_file_edits fs p edits dry).2 = .ok res →
        ∃ old new, read_file_content fs p = some old ∧
          applyEditsLoop old edits = .ok new ∧
          res = joinWith '\n' (makeDiffLines p old new)) ∧
    (∀ (p old new : Str),
        makeDiffLines p old new
          = ((("--- ").toList ++ p) :: ((("+++ ").toList ++ p)) ::
              unified_diff (pySplitlines old) (pySplitlines new))) ∧
    (∀ (p old new : Str), pySplitlines old = pySplitlines new →
        makeDiffLines p old new
          = [("--- ").toList ++ p, ("+++ ").toList ++ p]) ∧
    (∀ (a b : List Str), unified_diff a b ≠ [] →
        ∃ r rs, unified_diff a b = ("--- ").toList :: ("+++ ").toList :: r :: rs ∧
          isPre (("@@ -").toList) r = true ∧
          ∀ l ∈ r :: rs,
            isPre (("@@ -").toList) l = true ∨
            (∃ t, l = ' ' :: t) ∨ (∃ t, l = '-' :: t) ∨ (∃ t, l = '+' :: t)) ∧
    ((apply_file_edits fsEditA (("/r/f").toList)
          [⟨("a").toList, ("a\n").toList⟩] false).2
        = .ok (("--- /r/f\n+++ /r/f").toList) ∧
      read_file_content
          (apply_file_edits fsEditA (("/r/f").toList)
            [⟨("a").toList, ("a\n").toList⟩] false).1 (("/r/f").toList)
        = some (("a\n").toList) ∧
      ((makeDiffLines (("/r/f").toList) (("a").toList) (("a\n").toList)).filter
          (fun l => isPre (("--- ").toList) l)).length = 1) := by
  refine ⟨?_, fun p old new => rfl, ?_, ?_, by decide, by decide, by decide⟩
  · intro fs p edits dry res h
    unfold apply_file_edits at h
    split at h
    · simp at h
    · rename_i old heq
      split at h
      · simp at h
      · rename_i new hl
        simp at h
        exact ⟨old, new, heq, hl, h.symm⟩
  · intro p old new h
    show (("--- ").toList ++ p) :: (("+++ ").toList ++ p) ::
        unified_diff (pySplitlines old) (pySplitlines new) = _
    rw [h, unified_diff_self]
  · intro a b hdne
    unfold unified_diff at hdne ⊢
    rcases hg : get_grouped_opcodes a b 3 with _ | ⟨g, gs⟩
    · rw [hg] at hdne
      exact absurd rfl hdne
    · have hne : ∀ g2 ∈ g :: gs, g2 ≠ [] := by
        intro g2 hg2
        rw [← hg] at hg2
        unfold get_grouped_opcodes at hg2
        exact groupSplit_ne_nil 3 _ _ g2 hg2
      refine ⟨hunkHeader g,
        g.flatMap (opcodeLines a b) ++ gs.flatMap (groupLines a b), ?_, ?_, ?_⟩
      · simp [groupLines, List.flatMap_cons]
      · exact hunkHeader_isPre g (hne g (List.mem_cons_self g gs))
      · intro l hl
        rcases List.mem_cons.mp hl with rfl | hl2
        · exact Or.inl (hunkHeader_isPre g (hne g (List.mem_cons_self g gs)))
        · rcases List.mem_append.mp hl2 with h | h
          · obtain ⟨c2, _, hmem⟩ := List.mem_flatMap.mp h
            exact Or.inr (opcodeLines_shape a b c2 l hmem)
          · obtain ⟨g2, hg2, hmem⟩ := List.mem_flatMap.mp h
            rcases List.mem_cons.mp hmem with rfl | hmem2
            · exact Or.inl (hunkHeader_isPre g2 (hne g2 (List.mem_cons_of_mem g hg2)))
            · obtain ⟨c2, _, hmem3⟩ := List.mem_flatMap.mp hmem2
              exact Or.inr (opcodeLines_shape a b c2 l hmem3)

/-- OS state with the single file `/r/f` containing `ab`. -/
def fsEditAb : FS where
  home := ("/home/u").toList
  cwd := ("/").toList
  realpath := fun a => some a
  files := [(("/r/f").toList, ("ab").toList)]
  dirs := [("/r").toList]
  statInfo := fun _ => none

/-- C5 counterexample: a successful edit of `ab` to `x` returns a string
whose line list contains two `--- ` header lines — the labeled one prepended
by the source and the unlabeled one emitted by `difflib.unified_diff` — so
the returned string does not consist of exactly one `---` and one `+++`
header line labeled with the file's path. -/
theorem c5_diff_format_counterexample :
    (apply_file_edits fsEditAb (("/r/f").toList)
        [⟨("ab").toList, ("x").toList⟩] false).2
      = .ok (("--- /r/f\n+++ /r/f\n--- \n+++ \n@@ -1 +1 @@\n-ab\n+x").toList) ∧
    ((makeDiffLines (("/r/f").toList) (("ab").toList) (("x").toList)).filter
        (fun l => isPre (("--- ").toList) l)).length = 2 :=
  ⟨by decide, by decide⟩

/-- Witness for the amended C5: a concrete successful edit call, a concrete
pair of contents with equal line lists whose diff is the bare header pair,
and a concrete non-empty `unified_diff` output with its unlabeled second
header pair. -/
theorem c5_diff_format_witness :
    (∃ old new, read_file_content fsEditAb (("/r/f").toList) = some old ∧
      applyEditsLoop old [⟨("ab").toList, ("x").toList⟩] = .ok new ∧
      (("--- /r/f\n+++ /r/f\n--- \n+++ \n@@ -1 +1 @@\n-ab\n+x").toList)
        = joinWith '\n' (makeDiffLines (("/r/f").toList) old new)) ∧
    makeDiffLines (("/r/f").toList) (("x\ny").toList) (("x\ry").toList)
      = [("--- ").toList ++ ("/r/f").toList,
          ("+++ ").toList ++ ("/r/f").toList] ∧
    (∃ r rs, unified_diff [("ab").toList] [("x").toList]
        = ("--- ").toList :: ("+++ ").toList :: r :: rs ∧
      isPre (("@@ -").toList) r = true ∧
      ∀ l ∈ r :: rs,
        isPre (("@@ -").toList) l = true ∨
        (∃ t, l = ' ' :: t) ∨ (∃ t, l = '-' :: t) ∨ (∃ t, l = '+' :: t)) :=
  ⟨c5_diff_format_amended.1 fsEditAb (("/r/f").toList)
      [⟨("ab").toList, ("x").toList⟩] false
      (("--- /r/f\n+++ /r/f\n--- \n+++ \n@@ -1 +1 @@\n-ab\n+x").toList)
      (by decide),
    c5_diff_format_amended.2.2.1 (("/r/f").toList) (("x\ny").toList)
      (("x\ry").toList) (by decide),
    c5_diff_format_amended.2.2.2.1 [("ab").toList] [("x").toList]
      (by decide)⟩

/-! ### Immutability of the allow-list across the tool surface -/

theorem search_files_state (s : ServerState) :
    ∀ (fuel : Nat) (path pattern : Str) (excl : Option (List Str)),
      (search_files s fuel path pattern excl).1 = s := by
  intro fuel
  induction fuel with
  | zero => intro path pattern excl; rfl
  | succ fuel ih =>
    intro path pattern excl
    simp only [search_files]
    rcases h : validate_path s.fs s.allowed path with e | vp
    · rfl
    · exact ih vp pattern _

/-- C9: after startup, the stored AllowedRoots list is immutable: every
operation of the public tool surface — reading, writing, editing, listing,
searching, tree building, moving, and stat — returns a state whose allow-list
is exactly the input one; only `set_allowed_directories`, called from `main`
at startup, ever writes it. -/
theorem c9_allowed_roots_immutable :
    ∀ (s : ServerState) (op : ToolOp), (runTool s op).1.allowed = s.allowed := by
  intro s op
  cases op with
  | readTextFileOp path tl hd =>
    simp only [runTool]
    unfold read_text_file
    repeat' split
    all_goals rfl
  | readMediaFileOp path =>
    simp only [runTool]
    unfold read_media_file
    repeat' split
    all_goals rfl
  | writeFileOp path content =>
    simp only [runTool]
    unfold write_file
    repeat' split
    all_goals rfl
  | editFileOp path edits dryRun =>
    simp only [runTool]
    unfold edit_file
    repeat' split
    all_goals rfl
  | createDirectoryOp path =>
    simp only [runTool]
    unfold create_directory
    repeat' split
    all_goals rfl
  | listDirectoryOp path =>
    simp only [runTool]
    unfold list_directory
    repeat' split
    all_goals rfl
  | listDirectoryWithSizesOp path sortBy =>
    simp only [runTool]
    unfold list_directory_with_sizes
    repeat' split
    all_goals rfl
  | directoryTreeOp path excl =>
    simp only [runTool]
    unfold directory_tree
    repeat' split
    all_goals rfl
  | moveFileOp source destination =>
    simp only [runTool]
    unfold move_file
    repeat' split
    all_goals rfl
  | searchFilesOp path pattern excl =>
    simp only [runTool]
    rw [search_files_state s 1000 path pattern excl]
  | getFileInfoOp path =>
    simp only [runTool]
    unfold get_file_info
    repeat' split
    all_goals rfl
  | listAllowedDirectoriesOp =>
    simp only [runTool]
    unfold list_allowed_directories
    split <;> rfl

end FileServer
